import Mathlib

/-!
# suirpc: a JSON-RPC 2.0 client for a Sui node

A shallow embedding of `src/pkg/suirpc.go` and the properties of its request/response round trip.

The client is pure except for its two collaborators, so a call is modelled as a function that
returns what the Go function returns together with the trace of effects it performed, in order
(`Post`, `Println`, `Close`).  The transport is a function from the arguments of `Post` to what
`Post` returns; the logger is the trace itself.

The standard-library functions the client calls are modelled by executable definitions:

* `fmt.Sprintf` by `Sprintf`, for the verbs `%d`, `%s`, `%v` and `%%`;
* `json.Marshal` by `Marshal`, over the Go values of `GoValue` (no floating point);
* `json.Unmarshal` by `Unmarshal`, a byte-by-byte lexer and a token-by-token parser for the
  whole JSON grammar followed by the type-directed store into the target.

A Go string or byte slice is modelled by the Unicode text it holds, so every string here is valid
UTF-8; strings and bodies that are not have no counterpart.  Go's `int` is 64 bits wide.  A nil
slice, nil map or nil pointer is `none`.
-/

namespace Suirpc

/-! ## fmt -/

/-- An operand of `Sprintf`: an integer, or a string or byte slice (which `%s` prints alike). -/
inductive FmtArg where
  | int (n : Int)
  | str (s : String)
  deriving DecidableEq, Repr

/-- Base-10 text of an integer, as `strconv.FormatInt(n, 10)` and the verb `%d` give it. -/
def formatInt : Int → List Char
  | Int.ofNat k => Nat.toDigits 10 k
  | Int.negSucc k => '-' :: Nat.toDigits 10 (k + 1)

/-- What `fmt` prints for a verb that does not fit its operand: `%!verb(type=value)`. -/
def fmtBadVerb (verb : Char) : FmtArg → List Char
  | FmtArg.int n => "%!".data ++ verb :: "(int=".data ++ formatInt n ++ ")".data
  | FmtArg.str s => "%!".data ++ verb :: "(string=".data ++ s.data ++ ")".data

/-- One operand under one verb. -/
def fmtVerb (verb : Char) (arg : FmtArg) : List Char :=
  match arg with
  | FmtArg.int n => if verb = 'd' ∨ verb = 'v' then formatInt n else fmtBadVerb verb arg
  | FmtArg.str s => if verb = 's' ∨ verb = 'v' then s.data else fmtBadVerb verb arg

/-- The operands left over when the format is used up, as listed inside `%!(EXTRA ...)`. -/
def fmtExtra : List FmtArg → List Char
  | [] => []
  | FmtArg.int n :: rest =>
    "int=".data ++ formatInt n ++ (if rest.isEmpty then [] else ", ".data ++ fmtExtra rest)
  | FmtArg.str s :: rest =>
    "string=".data ++ s.data ++ (if rest.isEmpty then [] else ", ".data ++ fmtExtra rest)

/-- The formatting loop of `fmt.Sprintf`: text is copied, `%%` is a percent sign, any other
`%c` consumes the next operand.  Flags, width and precision are not modelled. -/
def doPrintf : List Char → List FmtArg → List Char
  | [], [] => []
  | [], a :: args => "%!(EXTRA ".data ++ fmtExtra (a :: args) ++ ")".data
  | c :: rest, args =>
    if c = '%' then
      match rest, args with
      | [], _ => "%!(NOVERB)".data ++ doPrintf [] args
      | v :: rest2, [] =>
        if v = '%' then '%' :: doPrintf rest2 []
        else "%!".data ++ v :: "(MISSING)".data ++ doPrintf rest2 []
      | v :: rest2, a :: args2 =>
        if v = '%' then '%' :: doPrintf rest2 (a :: args2)
        else fmtVerb v a ++ doPrintf rest2 args2
    else c :: doPrintf rest args

/-- Model of `fmt.Sprintf`. -/
def Sprintf (format : String) (args : List FmtArg) : String :=
  String.mk (doPrintf format.data args)

/-! ## Errors -/

/-- Sui Error (`type SuiError struct`). -/
structure SuiError where
  Code : Int
  Message : String
  deriving DecidableEq, Repr

/-- `func (err SuiError) Error() string`. -/
def SuiError.Error (err : SuiError) : String :=
  Sprintf "Error %d (%s)" [FmtArg.int err.Code, FmtArg.str err.Message]

/-- A value of Go's `error` interface, by the dynamic type the client can meet: a `SuiError`
value, one of the error types of `encoding/json` (their offsets and messages are not modelled),
or an error made by a collaborator (the transport, the body reader). -/
inductive GoError where
  | sui (e : SuiError)
  | unsupportedType
  | invalidJSON
  | typeMismatch
  | invalidTarget
  | other (msg : String)
  deriving DecidableEq, Repr

/-! ## json.Marshal -/

/-- The Go values a parameter of type `interface{}` can hold, as far as they are modelled: the
nil interface, booleans, integers of any width, strings (valid UTF-8), slices, maps with string
keys and structs.  `struct` lists the exported fields under their JSON names, in declaration
order; `unsupported` stands for a value `json.Marshal` refuses (a channel, a function, a complex
number).  Floating-point numbers, byte slices, pointers and types with a marshalling method of
their own are not modelled. -/
inductive GoValue where
  | nil
  | bool (b : Bool)
  | int (n : Int)
  | string (s : String)
  | nilSlice
  | slice (elems : List GoValue)
  | nilMap
  | map (entries : List (String × GoValue))
  | struct (fields : List (String × GoValue))
  | unsupported

/-- A `[]interface{}` as a value: `none` is the nil slice. -/
def GoValue.ofSlice : Option (List GoValue) → GoValue
  | none => GoValue.nilSlice
  | some elems => GoValue.slice elems

/-- Lower-case hexadecimal digit. -/
def hexDigit (n : Nat) : Char := "0123456789abcdef".data.getD n '0'

/-- How `json.Marshal` writes one character of a string: the quote, the backslash, backspace,
form feed, line feed, carriage return and tab have a two-character escape; the other control
characters, and `<`, `>`, `&`, U+2028 and U+2029 (HTML escaping is on), are written `\uXXXX`;
every other character stands for itself. -/
def escapeRune (c : Char) : List Char :=
  if c = '"' then ['\\', '"']
  else if c = '\\' then ['\\', '\\']
  else if c = '\x08' then ['\\', 'b']
  else if c = '\x0c' then ['\\', 'f']
  else if c = '\n' then ['\\', 'n']
  else if c = '\r' then ['\\', 'r']
  else if c = '\t' then ['\\', 't']
  else if c.toNat < 32 ∨ c = '<' ∨ c = '>' ∨ c = '&' then
    ['\\', 'u', '0', '0', hexDigit (c.toNat / 16), hexDigit (c.toNat % 16)]
  else if c.toNat = 0x2028 then "\\u2028".data
  else if c.toNat = 0x2029 then "\\u2029".data
  else [c]

/-- A string as a JSON string literal.  The string is its characters: valid UTF-8, to which the
replacement of invalid bytes does not apply. -/
def encodeString (s : List Char) : List Char :=
  '"' :: (s.flatMap escapeRune ++ ['"'])

/-- The encoded items separated by commas. -/
def joinComma : List (List Char) → List Char
  | [] => []
  | [x] => x
  | x :: y :: rest => x ++ ',' :: joinComma (y :: rest)

/-- One member of an object: the key as a string literal, a colon, the encoded value. -/
def encodeField (kv : List Char × List Char) : List Char :=
  encodeString kv.1 ++ ':' :: kv.2

/-- Order of map keys in the output. -/
def keyLE (a b : List Char × List Char) : Prop := a.1 ≤ b.1

instance : DecidableRel keyLE := fun a b => inferInstanceAs (Decidable (a.1 ≤ b.1))

mutual
/-- The JSON text of a value, or `none` when the value cannot be encoded.  A nil slice and a nil
map are `null`; a map's keys are sorted; a struct's fields keep their order. -/
def encodeValue : GoValue → Option (List Char)
  | GoValue.nil => some "null".data
  | GoValue.bool b => some (if b then "true".data else "false".data)
  | GoValue.int n => some (formatInt n)
  | GoValue.string s => some (encodeString s.data)
  | GoValue.nilSlice => some "null".data
  | GoValue.slice elems =>
    (encodeElems elems).map fun parts => '[' :: (joinComma parts ++ [']'])
  | GoValue.nilMap => some "null".data
  | GoValue.map entries =>
    (encodeFields entries).map fun parts =>
      '\x7b' :: (joinComma ((parts.insertionSort keyLE).map encodeField) ++ ['\x7d'])
  | GoValue.struct fields =>
    (encodeFields fields).map fun parts =>
      '\x7b' :: (joinComma (parts.map encodeField) ++ ['\x7d'])
  | GoValue.unsupported => none
/-- The texts of the elements of a slice, in order. -/
def encodeElems : List GoValue → Option (List (List Char))
  | [] => some []
  | v :: vs =>
    match encodeValue v, encodeElems vs with
    | some x, some xs => some (x :: xs)
    | _, _ => none
/-- The keys and texts of the members of a map or struct, in order. -/
def encodeFields : List (String × GoValue) → Option (List (List Char × List Char))
  | [] => some []
  | (k, v) :: kvs =>
    match encodeValue v, encodeFields kvs with
    | some x, some xs => some ((k.data, x) :: xs)
    | _, _ => none
end

/-- Model of `json.Marshal`. -/
def Marshal (v : GoValue) : Except GoError String :=
  match encodeValue v with
  | some text => Except.ok (String.mk text)
  | none => Except.error GoError.unsupportedType

/-- The request envelope (`type suiRequest struct`). -/
structure suiRequest where
  ID : Int
  JSONRPC : String
  Method : String
  Params : Option (List GoValue)

/-- The request as `json.Marshal` sees it: four fields under the names of their `json` tags. -/
def suiRequest.toValue (r : suiRequest) : GoValue :=
  GoValue.struct [("id", GoValue.int r.ID), ("jsonrpc", GoValue.string r.JSONRPC),
    ("method", GoValue.string r.Method), ("params", GoValue.ofSlice r.Params)]

/-! ## json.Unmarshal: reading JSON text -/

/-- A parsed JSON document.  A number keeps its literal; a member of an object keeps, next to its
key and value, the source text of the value (what a `json.RawMessage` field receives). -/
inductive JSON where
  | null
  | bool (b : Bool)
  | number (lit : String)
  | string (s : String)
  | array (items : List JSON)
  | object (members : List (String × String × JSON))
  deriving Repr

/-- One unit of the content of a string literal: a character written out (or a one-letter
escape), or the 16-bit value of a `\u` escape. -/
inductive StrUnit where
  | char (c : Char)
  | escape (n : Nat)
  deriving DecidableEq, Repr

/-- A lexical token with its source text. -/
inductive Token where
  | beginObject
  | endObject
  | beginArray
  | endArray
  | colon
  | comma
  | space (c : Char)
  | string (raw : List Char) (val : List Char)
  | number (raw : List Char)
  | literal (raw : List Char) (val : JSON)
  deriving Repr

/-- What the lexer is in the middle of. -/
inductive LexMode where
  | idle
  | inString (rawRev : List Char) (unitsRev : List StrUnit)
  | inEscape (rawRev : List Char) (unitsRev : List StrUnit)
  | inHex (rawRev : List Char) (unitsRev : List StrUnit) (count : Nat) (acc : Nat)
  | inNumber (rawRev : List Char)
  | inWord (rawRev : List Char)
  deriving Repr

/-- The lexer: its mode and the tokens completed so far, last first. -/
structure LexState where
  mode : LexMode
  tokensRev : List Token
  deriving Repr

/-- JSON whitespace: space, tab, carriage return, line feed. -/
def isSpace (c : Char) : Bool := c = ' ' ∨ c = '\t' ∨ c = '\r' ∨ c = '\n'

/-- ASCII decimal digit. -/
def isDigit (c : Char) : Bool := 48 ≤ c.toNat ∧ c.toNat ≤ 57

/-- A character that can stand inside a number literal. -/
def isNumberChar (c : Char) : Bool :=
  isDigit c ∨ c = '-' ∨ c = '+' ∨ c = '.' ∨ c = 'e' ∨ c = 'E'

/-- ASCII lower-case letter. -/
def isLower (c : Char) : Bool := 97 ≤ c.toNat ∧ c.toNat ≤ 122

/-- Value of a hexadecimal digit of either case. -/
def hexValue (c : Char) : Option Nat :=
  if isDigit c then some (c.toNat - 48)
  else if 97 ≤ c.toNat ∧ c.toNat ≤ 102 then some (c.toNat - 87)
  else if 65 ≤ c.toNat ∧ c.toNat ≤ 70 then some (c.toNat - 55)
  else none

/-- The text after its leading digits. -/
def dropDigits : List Char → List Char
  | [] => []
  | c :: cs => if isDigit c then dropDigits cs else c :: cs

/-- Nothing, or an exponent: `e` or `E`, an optional sign, one or more digits. -/
def validExponent : List Char → Bool
  | [] => true
  | e :: rest =>
    (e = 'e' ∨ e = 'E') &&
      match rest with
      | [] => false
      | s :: rest2 =>
        if s = '+' ∨ s = '-' then
          match rest2 with
          | [] => false
          | d :: rest3 => isDigit d && (dropDigits rest3).isEmpty
        else isDigit s && (dropDigits rest2).isEmpty

/-- An optional fraction (a point and one or more digits), then an optional exponent. -/
def validFraction : List Char → Bool
  | '.' :: d :: rest => isDigit d && validExponent (dropDigits rest)
  | '.' :: [] => false
  | rest => validExponent rest

/-- The integer part (`0`, or digits not starting with `0`) and what may follow it. -/
def validUnsigned : List Char → Bool
  | [] => false
  | d :: rest =>
    if d = '0' then validFraction rest
    else isDigit d && validFraction (dropDigits rest)

/-- The JSON grammar of a number literal. -/
def validNumber : List Char → Bool
  | '-' :: rest => validUnsigned rest
  | cs => validUnsigned cs

/-- U+FFFD, which replaces a `\u` escape that is half of a surrogate pair on its own. -/
def replacementChar : Char := Char.ofNat 0xFFFD

/-- A UTF-16 surrogate code unit. -/
def isSurrogate (n : Nat) : Bool := 0xD800 ≤ n ∧ n < 0xE000

/-- The character a high and a low surrogate spell together. -/
def decodeSurrogates (hi lo : Nat) : Option Char :=
  if 0xD800 ≤ hi ∧ hi < 0xDC00 ∧ 0xDC00 ≤ lo ∧ lo < 0xE000 then
    some (Char.ofNat ((hi - 0xD800) * 0x400 + (lo - 0xDC00) + 0x10000))
  else none

/-- The characters a string literal denotes, read unit by unit; `pending` is a high surrogate
escape just read.  A high surrogate escape directly followed by a low surrogate escape is one
character; any other surrogate escape is U+FFFD. -/
def decodeUnitsFrom : Option Nat → List StrUnit → List Char
  | none, [] => []
  | some _, [] => [replacementChar]
  | none, StrUnit.char c :: rest => c :: decodeUnitsFrom none rest
  | some _, StrUnit.char c :: rest => replacementChar :: c :: decodeUnitsFrom none rest
  | none, StrUnit.escape n :: rest =>
    if 0xD800 ≤ n ∧ n < 0xDC00 then decodeUnitsFrom (some n) rest
    else if isSurrogate n then replacementChar :: decodeUnitsFrom none rest
    else Char.ofNat n :: decodeUnitsFrom none rest
  | some hi, StrUnit.escape n :: rest =>
    match decodeSurrogates hi n with
    | some c => c :: decodeUnitsFrom none rest
    | none =>
      if 0xD800 ≤ n ∧ n < 0xDC00 then replacementChar :: decodeUnitsFrom (some n) rest
      else if isSurrogate n then replacementChar :: replacementChar :: decodeUnitsFrom none rest
      else replacementChar :: Char.ofNat n :: decodeUnitsFrom none rest

/-- The characters a string literal denotes. -/
def decodeUnits (units : List StrUnit) : List Char := decodeUnitsFrom none units

/-- The token of a run of lower-case letters: `true`, `false` or `null`, nothing else. -/
def wordToken (raw : List Char) : Option Token :=
  if raw = "true".data then some (Token.literal raw (JSON.bool true))
  else if raw = "false".data then some (Token.literal raw (JSON.bool false))
  else if raw = "null".data then some (Token.literal raw JSON.null)
  else none

/-- A character met between tokens. -/
def lexIdle (tokensRev : List Token) (c : Char) : Option LexState :=
  if isSpace c then some ⟨LexMode.idle, Token.space c :: tokensRev⟩
  else if c = '\x7b' then some ⟨LexMode.idle, Token.beginObject :: tokensRev⟩
  else if c = '\x7d' then some ⟨LexMode.idle, Token.endObject :: tokensRev⟩
  else if c = '[' then some ⟨LexMode.idle, Token.beginArray :: tokensRev⟩
  else if c = ']' then some ⟨LexMode.idle, Token.endArray :: tokensRev⟩
  else if c = ':' then some ⟨LexMode.idle, Token.colon :: tokensRev⟩
  else if c = ',' then some ⟨LexMode.idle, Token.comma :: tokensRev⟩
  else if c = '"' then some ⟨LexMode.inString [c] [], tokensRev⟩
  else if c = '-' ∨ isDigit c then some ⟨LexMode.inNumber [c], tokensRev⟩
  else if isLower c then some ⟨LexMode.inWord [c], tokensRev⟩
  else none

/-- The character a one-letter escape stands for. -/
def simpleEscape (c : Char) : Option Char :=
  if c = '"' ∨ c = '\\' ∨ c = '/' then some c
  else if c = 'b' then some (Char.ofNat 8)
  else if c = 'f' then some (Char.ofNat 12)
  else if c = 'n' then some '\n'
  else if c = 'r' then some '\r'
  else if c = 't' then some '\t'
  else none

/-- One character of input; `none` is a syntax error.  A number or a word ends at the first
character that cannot continue it, which is then read as a character between tokens. -/
def lexStep (st : LexState) (c : Char) : Option LexState :=
  match st.mode with
  | LexMode.idle => lexIdle st.tokensRev c
  | LexMode.inString rawRev unitsRev =>
    if c = '"' then
      some ⟨LexMode.idle,
        Token.string (c :: rawRev).reverse (decodeUnits unitsRev.reverse) :: st.tokensRev⟩
    else if c = '\\' then some ⟨LexMode.inEscape (c :: rawRev) unitsRev, st.tokensRev⟩
    else if c.toNat < 32 then none
    else some ⟨LexMode.inString (c :: rawRev) (StrUnit.char c :: unitsRev), st.tokensRev⟩
  | LexMode.inEscape rawRev unitsRev =>
    if c = 'u' then some ⟨LexMode.inHex (c :: rawRev) unitsRev 0 0, st.tokensRev⟩
    else
      match simpleEscape c with
      | some d => some ⟨LexMode.inString (c :: rawRev) (StrUnit.char d :: unitsRev), st.tokensRev⟩
      | none => none
  | LexMode.inHex rawRev unitsRev count acc =>
    match hexValue c with
    | none => none
    | some h =>
      if count = 3 then
        some ⟨LexMode.inString (c :: rawRev) (StrUnit.escape (acc * 16 + h) :: unitsRev),
          st.tokensRev⟩
      else some ⟨LexMode.inHex (c :: rawRev) unitsRev (count + 1) (acc * 16 + h), st.tokensRev⟩
  | LexMode.inNumber rawRev =>
    if isNumberChar c then some ⟨LexMode.inNumber (c :: rawRev), st.tokensRev⟩
    else if validNumber rawRev.reverse then
      lexIdle (Token.number rawRev.reverse :: st.tokensRev) c
    else none
  | LexMode.inWord rawRev =>
    if isLower c then some ⟨LexMode.inWord (c :: rawRev), st.tokensRev⟩
    else
      match wordToken rawRev.reverse with
      | some tok => lexIdle (tok :: st.tokensRev) c
      | none => none

/-- The lexer run over the input. -/
def lexRun : LexState → List Char → Option LexState
  | st, [] => some st
  | st, c :: cs =>
    match lexStep st c with
    | some st2 => lexRun st2 cs
    | none => none

/-- End of input: a number or word in progress is completed, an open string is an error. -/
def lexFinish (st : LexState) : Option (List Token) :=
  match st.mode with
  | LexMode.idle => some st.tokensRev.reverse
  | LexMode.inNumber rawRev =>
    if validNumber rawRev.reverse then some (Token.number rawRev.reverse :: st.tokensRev).reverse
    else none
  | LexMode.inWord rawRev =>
    match wordToken rawRev.reverse with
    | some tok => some (tok :: st.tokensRev).reverse
    | none => none
  | _ => none

/-- The tokens of a text. -/
def tokenize (data : List Char) : Option (List Token) :=
  match lexRun ⟨LexMode.idle, []⟩ data with
  | some st => lexFinish st
  | none => none

/-- An array or object being read: its source text so far (reversed), its content so far
(reversed) and, for an object, the key whose value is awaited. -/
inductive Frame where
  | array (rawRev : List Char) (itemsRev : List JSON)
  | object (rawRev : List Char) (membersRev : List (String × String × JSON)) (key : Option String)
  deriving Repr

/-- What the grammar allows next. -/
inductive Expect where
  | value
  | valueOrEnd
  | keyOrEnd
  | key
  | colon
  | commaOrEnd
  | done
  deriving DecidableEq, Repr

/-- The parser: the open arrays and objects, innermost first, what may come next, and the
document once it is complete. -/
structure ParseState where
  stack : List Frame
  expect : Expect
  result : Option JSON
  deriving Repr

/-- The decoder refuses arrays and objects nested deeper than this. -/
def maxNestingDepth : Nat := 10000

/-- Source text added to the frame. -/
def Frame.append (text : List Char) : Frame → Frame
  | Frame.array rawRev itemsRev => Frame.array (text.reverse ++ rawRev) itemsRev
  | Frame.object rawRev membersRev key => Frame.object (text.reverse ++ rawRev) membersRev key

/-- A complete value, with its source text, goes to the enclosing array or object, or is the
document. -/
def deliver (stack : List Frame) (raw : List Char) (v : JSON) : Option ParseState :=
  match stack with
  | [] => some ⟨[], Expect.done, some v⟩
  | Frame.array rawRev itemsRev :: below =>
    some ⟨Frame.array (raw.reverse ++ rawRev) (v :: itemsRev) :: below, Expect.commaOrEnd, none⟩
  | Frame.object rawRev membersRev (some k) :: below =>
    some ⟨Frame.object (raw.reverse ++ rawRev) ((k, String.mk raw, v) :: membersRev) none :: below,
      Expect.commaOrEnd, none⟩
  | Frame.object _ _ none :: _ => none

/-- One token; `none` is a syntax error. -/
def parseStep (st : ParseState) (tok : Token) : Option ParseState :=
  match tok with
  | Token.space c =>
    match st.stack with
    | [] => some st
    | top :: below => some { st with stack := top.append [c] :: below }
  | Token.string raw val =>
    match st.expect with
    | Expect.value => deliver st.stack raw (JSON.string (String.mk val))
    | Expect.valueOrEnd => deliver st.stack raw (JSON.string (String.mk val))
    | Expect.keyOrEnd =>
      match st.stack with
      | Frame.object rawRev membersRev _ :: below =>
        some ⟨Frame.object (raw.reverse ++ rawRev) membersRev (some (String.mk val)) :: below,
          Expect.colon, none⟩
      | _ => none
    | Expect.key =>
      match st.stack with
      | Frame.object rawRev membersRev _ :: below =>
        some ⟨Frame.object (raw.reverse ++ rawRev) membersRev (some (String.mk val)) :: below,
          Expect.colon, none⟩
      | _ => none
    | _ => none
  | Token.number raw =>
    if st.expect = Expect.value ∨ st.expect = Expect.valueOrEnd then
      deliver st.stack raw (JSON.number (String.mk raw))
    else none
  | Token.literal raw v =>
    if st.expect = Expect.value ∨ st.expect = Expect.valueOrEnd then deliver st.stack raw v
    else none
  | Token.beginArray =>
    if (st.expect = Expect.value ∨ st.expect = Expect.valueOrEnd)
        ∧ st.stack.length < maxNestingDepth then
      some ⟨Frame.array ['['] [] :: st.stack, Expect.valueOrEnd, none⟩
    else none
  | Token.beginObject =>
    if (st.expect = Expect.value ∨ st.expect = Expect.valueOrEnd)
        ∧ st.stack.length < maxNestingDepth then
      some ⟨Frame.object ['\x7b'] [] none :: st.stack, Expect.keyOrEnd, none⟩
    else none
  | Token.endArray =>
    if st.expect = Expect.valueOrEnd ∨ st.expect = Expect.commaOrEnd then
      match st.stack with
      | Frame.array rawRev itemsRev :: below =>
        deliver below (']' :: rawRev).reverse (JSON.array itemsRev.reverse)
      | _ => none
    else none
  | Token.endObject =>
    if st.expect = Expect.keyOrEnd ∨ st.expect = Expect.commaOrEnd then
      match st.stack with
      | Frame.object rawRev membersRev none :: below =>
        deliver below ('\x7d' :: rawRev).reverse (JSON.object membersRev.reverse)
      | _ => none
    else none
  | Token.colon =>
    if st.expect = Expect.colon then
      match st.stack with
      | top :: below => some ⟨top.append [':'] :: below, Expect.value, none⟩
      | [] => none
    else none
  | Token.comma =>
    if st.expect = Expect.commaOrEnd then
      match st.stack with
      | Frame.array rawRev itemsRev :: below =>
        some ⟨Frame.array (',' :: rawRev) itemsRev :: below, Expect.value, none⟩
      | Frame.object rawRev membersRev key :: below =>
        some ⟨Frame.object (',' :: rawRev) membersRev key :: below, Expect.key, none⟩
      | [] => none
    else none

/-- The parser run over the tokens. -/
def parseRun : ParseState → List Token → Option ParseState
  | st, [] => some st
  | st, tok :: toks =>
    match parseStep st tok with
    | some st2 => parseRun st2 toks
    | none => none

/-- The document a text spells: exactly one JSON value, with whitespace around it at most.
`none` is the decoder's syntax error. -/
def parseJSON (data : List Char) : Option JSON :=
  match tokenize data with
  | none => none
  | some toks =>
    match parseRun ⟨[], Expect.value, none⟩ toks with
    | some ⟨[], Expect.done, some v⟩ => some v
    | _ => none

/-! ## json.Unmarshal: storing a document -/

/-- A character as it is compared when a key is matched to a field name: without regard to
case.  Besides the ASCII letters only the long s (U+017F) and the Kelvin sign (U+212A) fold to an
ASCII letter, and every field name here is ASCII. -/
def foldRune (c : Char) : Char :=
  if isLower c then Char.ofNat (c.toNat - 32)
  else if c.toNat = 0x17F then 'S'
  else if c.toNat = 0x212A then 'K'
  else c

/-- The key of a member names the field with this JSON name. -/
def equalFold (key name : String) : Bool :=
  key.data.map foldRune = name.data.map foldRune

/-- The number a non-empty run of decimal digits spells. -/
def parseDigits (cs : List Char) : Option Nat :=
  if cs.isEmpty then none
  else
    cs.foldl
      (fun acc c => acc.bind fun n => if isDigit c then some (n * 10 + (c.toNat - 48)) else none)
      (some 0)

/-- `strconv.ParseInt(lit, 10, 64)` on a JSON number literal: the literal must be an integer
(no fraction, no exponent) that fits 64 bits. -/
def parseInt64 (lit : List Char) : Option Int :=
  match lit with
  | '-' :: ds => (parseDigits ds).bind fun n => if n ≤ 2 ^ 63 then some (-(n : Int)) else none
  | ds => (parseDigits ds).bind fun n => if n < 2 ^ 63 then some (n : Int) else none

/-- A value stored into an `int`: null leaves it alone, an integer literal sets it, anything
else is a type error (`true`) and leaves it alone. -/
def storeInt (v : JSON) (cur : Int) : Int × Bool :=
  match v with
  | JSON.null => (cur, false)
  | JSON.number lit =>
    match parseInt64 lit.data with
    | some n => (n, false)
    | none => (cur, true)
  | _ => (cur, true)

/-- A value stored into a `string`: null leaves it alone, a string sets it, anything else is a
type error. -/
def storeString (v : JSON) (cur : String) : String × Bool :=
  match v with
  | JSON.null => (cur, false)
  | JSON.string s => (s, false)
  | _ => (cur, true)

/-- One member of an object stored into a `SuiError`; a key that names no field is skipped. -/
def storeSuiErrorField (acc : SuiError × Bool) (m : String × String × JSON) : SuiError × Bool :=
  match acc, m with
  | (e, bad), (key, _, v) =>
    if equalFold key "code" then
      match storeInt v e.Code with
      | (n, err) => ({ e with Code := n }, bad || err)
    else if equalFold key "message" then
      match storeString v e.Message with
      | (s, err) => ({ e with Message := s }, bad || err)
    else (e, bad)

/-- A value stored into a `SuiError` struct: null has no effect, an object is stored member by
member (a type error is recorded and decoding goes on), anything else is a type error. -/
def storeSuiError (v : JSON) (cur : SuiError) : SuiError × Bool :=
  match v with
  | JSON.null => (cur, false)
  | JSON.object members => members.foldl storeSuiErrorField (cur, false)
  | _ => (cur, true)

/-- A value stored into a `*SuiError`: null sets the pointer to nil; for anything else the
pointer is used, or a zero struct is allocated when it is nil, and the value is stored there. -/
def storeSuiErrorPtr (v : JSON) (cur : Option SuiError) : Option SuiError × Bool :=
  match v with
  | JSON.null => (none, false)
  | _ =>
    match storeSuiError v (cur.getD ⟨0, ""⟩) with
    | (e, err) => (some e, err)

/-- The response envelope (`type suiResponse struct`); `Result` is a `json.RawMessage`. -/
structure suiResponse where
  ID : Int
  JSONRPC : String
  Result : Option String
  Error : Option SuiError
  deriving DecidableEq, Repr

/-- One member of an object stored into a `suiResponse`.  The raw message takes the source text
of its member as it is, the literal `null` included. -/
def storeResponseField (acc : suiResponse × Bool) (m : String × String × JSON) :
    suiResponse × Bool :=
  match acc, m with
  | (resp, bad), (key, raw, v) =>
    if equalFold key "id" then
      match storeInt v resp.ID with
      | (n, err) => ({ resp with ID := n }, bad || err)
    else if equalFold key "jsonrpc" then
      match storeString v resp.JSONRPC with
      | (s, err) => ({ resp with JSONRPC := s }, bad || err)
    else if equalFold key "result" then ({ resp with Result := some raw }, bad)
    else if equalFold key "error" then
      match storeSuiErrorPtr v resp.Error with
      | (e, err) => ({ resp with Error := e }, bad || err)
    else (resp, bad)

/-- A value stored into a `suiResponse` struct. -/
def storeResponse (v : JSON) (cur : suiResponse) : suiResponse × Bool :=
  match v with
  | JSON.null => (cur, false)
  | JSON.object members => members.foldl storeResponseField (cur, false)
  | _ => (cur, true)

/-- A map with one key set. -/
def mapInsert (m : List (String × JSON)) (k : String) (v : JSON) : List (String × JSON) :=
  m.filter (fun e => e.1 ≠ k) ++ [(k, v)]

/-- The decimal digits at the head of a text, and the rest of it. -/
def spanDigits : List Char → List Char × List Char
  | [] => ([], [])
  | c :: cs =>
    if isDigit c then
      match spanDigits cs with
      | (ds, rest) => (c :: ds, rest)
    else ([], c :: cs)

/-- The number a run of decimal digits spells, 0 for none. -/
def digitsValue (ds : List Char) : Nat := ds.foldl (fun n c => n * 10 + (c.toNat - 48)) 0

/-- A number literal as a mantissa and a decimal exponent: its magnitude is
`mantissa * 10 ^ exponent`. -/
def decimalOf (lit : List Char) : Nat × Int :=
  let unsigned := match lit with
    | '-' :: rest => rest
    | _ => lit
  match spanDigits unsigned with
  | (whole, rest) =>
    let split := match rest with
      | '.' :: r => spanDigits r
      | _ => ([], rest)
    match split with
    | (fraction, rest2) =>
      let exponent : Int := match rest2 with
        | _ :: '-' :: ds => -(digitsValue ds : Int)
        | _ :: '+' :: ds => (digitsValue ds : Int)
        | _ :: ds => (digitsValue ds : Int)
        | [] => 0
      (digitsValue (whole ++ fraction), exponent - fraction.length)

/-- The least magnitude that rounds to infinity as a `float64`: halfway between the largest
finite value and 2^1024. -/
def float64Overflow : Nat := 2 ^ 1024 - 2 ^ 970

/-- `strconv.ParseFloat(lit, 64)` reports a range error: the magnitude of the literal is
`float64Overflow` or more.  (A magnitude too small for a `float64` is no error.)  The powers of
ten are computed only where the comparison is not already decided by the size of the exponent. -/
def overflowsFloat64 (lit : List Char) : Bool :=
  match decimalOf lit with
  | (mantissa, exponent) =>
    if mantissa = 0 then false
    else if 0 ≤ exponent then
      if 400 < exponent then true
      else decide (float64Overflow ≤ mantissa * 10 ^ exponent.toNat)
    else if (Nat.toDigits 10 mantissa).length ≤ (-exponent).toNat then false
    else decide (float64Overflow * 10 ^ (-exponent).toNat ≤ mantissa)

mutual
/-- A document stored into an `interface{}` meets a number out of the range of `float64`,
at any depth. -/
def floatRangeError : JSON → Bool
  | JSON.number lit => overflowsFloat64 lit.data
  | JSON.array items => floatRangeErrorItems items
  | JSON.object members => floatRangeErrorMembers members
  | _ => false
/-- One of the items meets such a number. -/
def floatRangeErrorItems : List JSON → Bool
  | [] => false
  | v :: vs => floatRangeError v || floatRangeErrorItems vs
/-- The value of one of the members meets such a number. -/
def floatRangeErrorMembers : List (String × String × JSON) → Bool
  | [] => false
  | (_, _, v) :: ms => floatRangeError v || floatRangeErrorMembers ms
end

/-- A value stored into a `map[string]interface{}`: null makes the map nil, an object sets its
keys in the map (allocated when nil), anything else is a type error.  A number is stored as a
`float64`, and one out of range is a type error, after which decoding goes on.  The values are
kept as parsed documents: the Go values an `interface{}` holds for them are not modelled. -/
def storeMap (v : JSON) (cur : Option (List (String × JSON))) :
    Option (List (String × JSON)) × Bool :=
  match v with
  | JSON.null => (none, false)
  | JSON.object members =>
    (some (members.foldl (fun m e => mapInsert m e.1 e.2.2) (cur.getD [])),
      floatRangeErrorMembers members)
  | _ => (cur, true)

/-- Model of `json.Unmarshal(data, &cur)` for a target whose type stores documents by `store`:
the whole text is checked first, then the document is stored; the first type error is
returned after the store has run. -/
def Unmarshal {τ : Type} (store : JSON → τ → τ × Bool) (data : String) (cur : τ) :
    τ × Option GoError :=
  match parseJSON data.data with
  | none => (cur, some GoError.invalidJSON)
  | some v =>
    match store v cur with
    | (new, true) => (new, some GoError.typeMismatch)
    | (new, false) => (new, none)

/-- The `target interface{}` of `call`: the nil interface, a value `json.Unmarshal` refuses (not
a pointer, or a nil pointer), or a pointer to a value of a type that stores documents by
`store`. -/
inductive Target (τ : Type) where
  | nilInterface
  | notPointer
  | pointer (pointee : τ) (store : JSON → τ → τ × Bool)

/-- The value behind the target, `default` when there is none. -/
def Target.get {τ : Type} (default : τ) : Target τ → τ
  | Target.pointer pointee _ => pointee
  | _ => default

/-- Model of `json.Unmarshal(data, target)`: a target that is not a pointer, or is a nil
pointer, is refused before the text is looked at. -/
def UnmarshalTarget {τ : Type} (data : String) (target : Target τ) : Target τ × Option GoError :=
  match target with
  | Target.pointer pointee store =>
    match Unmarshal store data pointee with
    | (new, err) => (Target.pointer new store, err)
  | _ => (target, some GoError.invalidTarget)

/-! ## The client -/

/-- What `ioutil.ReadAll` gets from a response body: the bytes, and the error if reading failed. -/
structure ReadCloser where
  data : String
  readErr : Option GoError
  deriving DecidableEq, Repr

/-- The part of `http.Response` in reach of the client. -/
structure Response where
  StatusCode : Int
  Body : ReadCloser
  deriving DecidableEq, Repr

/-- What `Post` returns: a response or nil, and an error or nil. -/
structure PostResult where
  response : Option Response
  err : Option GoError
  deriving DecidableEq, Repr

/-- The transport (`type httpClient interface`): `Post(url, contentType, body)`. -/
abbrev httpClient := String → String → String → PostResult

/-- An effect of a call on a collaborator: the transport's `Post`, the logger's `Println`, the
deferred `Close` of the response body. -/
inductive Event where
  | Post (url contentType body : String)
  | Println (line : String)
  | Close
  deriving DecidableEq, Repr

/-- How a Go function ended: it returned values, or it panicked. -/
inductive Returned (α : Type) where
  | values (v : α)
  | panic
  deriving DecidableEq, Repr

/-- A run of a function: how it ended and the effects it had, in order. -/
structure Run (α : Type) where
  ret : Returned α
  trace : List Event
  deriving DecidableEq, Repr

/-- Sui rpc client (`type SuiRPC struct`).  The logger is the trace of the run: `New` installs
a transport and a logger and both fields are unexported, so a client has the two; the zero
`SuiRPC`, whose collaborators are nil, is not modelled. -/
structure SuiRPC where
  url : String
  client : httpClient
  Debug : Bool

/-- New create new rpc client with given url; `defaultClient` is `http.DefaultClient`. -/
def New (defaultClient : httpClient) (url : String) (options : List (SuiRPC → SuiRPC)) : SuiRPC :=
  options.foldl (fun rpc option => option rpc) { url := url, client := defaultClient, Debug := false }

/-- NewSuiRPC create new rpc client with given url. -/
def NewSuiRPC (defaultClient : httpClient) (url : String) (options : List (SuiRPC → SuiRPC)) :
    SuiRPC :=
  New defaultClient url options

/-- URL returns client url. -/
def SuiRPC.URL (rpc : SuiRPC) : String := rpc.url

/-- The zero value `new(suiResponse)` points to. -/
def zeroResponse : suiResponse := { ID := 0, JSONRPC := "", Result := none, Error := none }

/-- Call returns raw response of method call. -/
def SuiRPC.Call (rpc : SuiRPC) (method : String) (params : Option (List GoValue)) :
    Run (Option String × Option GoError) :=
  let request : suiRequest := { ID := 1, JSONRPC := "2.0", Method := method, Params := params }
  match Marshal request.toValue with
  | Except.error err => ⟨Returned.values (none, some err), []⟩
  | Except.ok body =>
    let posted := rpc.client rpc.url "application/json" body
    let post := Event.Post rpc.url "application/json" body
    let deferred := if posted.response.isSome then [Event.Close] else []
    match posted.err with
    | some err => ⟨Returned.values (none, some err), post :: deferred⟩
    | none =>
      match posted.response with
      | none => ⟨Returned.panic, [post]⟩
      | some response =>
        match response.Body.readErr with
        | some err => ⟨Returned.values (none, some err), post :: deferred⟩
        | none =>
          let data := response.Body.data
          let logged :=
            if rpc.Debug then
              [Event.Println (Sprintf "%s\nRequest: %s\nResponse: %s\n"
                [FmtArg.str method, FmtArg.str body, FmtArg.str data])]
            else []
          match Unmarshal storeResponse data zeroResponse with
          | (_, some err) => ⟨Returned.values (none, some err), post :: logged ++ deferred⟩
          | (resp, none) =>
            match resp.Error with
            | some e => ⟨Returned.values (none, some (GoError.sui e)), post :: logged ++ deferred⟩
            | none => ⟨Returned.values (resp.Result, none), post :: logged ++ deferred⟩

/-- The typed wrapper `func (rpc *SuiRPC) call`: it returns the error and leaves the target as
the second component. -/
def SuiRPC.call {τ : Type} (rpc : SuiRPC) (method : String) (target : Target τ)
    (params : Option (List GoValue)) : Run (Option GoError × Target τ) :=
  match rpc.Call method params with
  | ⟨Returned.panic, trace⟩ => ⟨Returned.panic, trace⟩
  | ⟨Returned.values (_, some err), trace⟩ => ⟨Returned.values (some err, target), trace⟩
  | ⟨Returned.values (result, none), trace⟩ =>
    match target with
    | Target.nilInterface => ⟨Returned.values (none, target), trace⟩
    | _ =>
      match UnmarshalTarget (result.getD "") target with
      | (new, err) => ⟨Returned.values (err, new), trace⟩

/-- Service discovery method that will return the OpenRPC schema for the JSON-RPC API. -/
def SuiRPC.Discover (rpc : SuiRPC) : Run (Option (List (String × JSON)) × Option GoError) :=
  let serviceDiscovery : Option (List (String × JSON)) := none
  match rpc.call "rpc.discover" (Target.pointer serviceDiscovery storeMap) none with
  | ⟨Returned.panic, trace⟩ => ⟨Returned.panic, trace⟩
  | ⟨Returned.values (err, target), trace⟩ =>
    ⟨Returned.values (target.get serviceDiscovery, err), trace⟩

/-! ## Vocabulary of the statements -/

/-- The event is a call of the transport. -/
def Event.isPost : Event → Bool
  | Event.Post _ _ _ => true
  | _ => false

/-- The event is a call of the logger. -/
def Event.isPrintln : Event → Bool
  | Event.Println _ => true
  | _ => false

/-- The calls of the transport in a trace, in order. -/
def posts (trace : List Event) : List Event := trace.filter Event.isPost

/-- The calls of the logger in a trace, in order. -/
def printed (trace : List Event) : List Event := trace.filter Event.isPrintln

/-- The request of the call can be encoded, and the transport answers it without error by a
response, of whatever status code, whose body reads in full as `data`. -/
def Answers (rpc : SuiRPC) (method : String) (params : Option (List GoValue)) (data : String) :
    Prop :=
  ∃ body status,
    Marshal (suiRequest.toValue ⟨1, "2.0", method, params⟩) = Except.ok body ∧
      rpc.client rpc.url "application/json" body = ⟨some ⟨status, ⟨data, none⟩⟩, none⟩

/-- The last member of an object whose key names the field. -/
def lastMember (name : String) (members : List (String × String × JSON)) :
    Option (String × String × JSON) :=
  (members.filter fun m => equalFold m.1 name).getLast?

/-- The source text of the member of the top-level object of `data` that the field `name`
receives (the last one, when several keys name the field). -/
def memberText (name : String) (data : String) : Option String :=
  match parseJSON data.data with
  | some (JSON.object members) => (lastMember name members).map fun m => m.2.1
  | _ => none

/-- Shape of a member an integer field accepts: null, or an integer literal that fits 64 bits. -/
def fitsInt (v : JSON) : Bool :=
  match v with
  | JSON.null => true
  | JSON.number lit => (parseInt64 lit.data).isSome
  | _ => false

/-- Shape of a member a string field accepts: null, or a string. -/
def fitsString (v : JSON) : Bool :=
  match v with
  | JSON.null => true
  | JSON.string _ => true
  | _ => false

/-- Shape of the `error` member: null, or an object whose `code` members fit an integer and
whose `message` members fit a string. -/
def fitsSuiError (v : JSON) : Bool :=
  match v with
  | JSON.null => true
  | JSON.object members =>
    members.all fun m =>
      (!equalFold m.1 "code" || fitsInt m.2.2) && (!equalFold m.1 "message" || fitsString m.2.2)
  | _ => false

/-- Shape of a response document: null, or an object whose `id` members fit an integer, whose
`jsonrpc` members fit a string and whose `error` members fit the error shape. -/
def fitsResponse (v : JSON) : Bool :=
  match v with
  | JSON.null => true
  | JSON.object members =>
    members.all fun m =>
      (!equalFold m.1 "id" || fitsInt m.2.2) && (!equalFold m.1 "jsonrpc" || fitsString m.2.2)
        && (!equalFold m.1 "error" || fitsSuiError m.2.2)
  | _ => false

/-- The unit the lexer reads back from what `escapeRune` writes for a character. -/
def escapeUnit (c : Char) : StrUnit :=
  if c = '"' ∨ c = '\\' ∨ c = '\x08' ∨ c = '\x0c' ∨ c = '\n' ∨ c = '\r' ∨ c = '\t' then
    StrUnit.char c
  else if c.toNat < 32 ∨ c = '<' ∨ c = '>' ∨ c = '&' ∨ c.toNat = 0x2028 ∨ c.toNat = 0x2029 then
    StrUnit.escape c.toNat
  else StrUnit.char c

/-- A character that ends a value inside an array or object. -/
def isDelim (c : Char) : Bool := c = ',' ∨ c = ']' ∨ c = '\x7d'

/-- The token of a delimiter. -/
def delimToken (c : Char) : Token :=
  if c = ',' then Token.comma else if c = ']' then Token.endArray else Token.endObject

/-- The text lexes as the tokens wherever a value can stand: before a delimiter, and at the end
of the input. -/
def LexOK (text : List Char) (toks : List Token) : Prop :=
  (∀ T d rest, isDelim d = true →
      lexRun ⟨LexMode.idle, T⟩ (text ++ d :: rest) =
        lexRun ⟨LexMode.idle, delimToken d :: (toks.reverse ++ T)⟩ rest)
    ∧ ∀ T, (lexRun ⟨LexMode.idle, T⟩ text).bind lexFinish = some ((toks.reverse ++ T).reverse)

/-- The token lists separated by commas. -/
def joinTokens : List (List Token) → List Token
  | [] => []
  | [x] => x
  | x :: y :: rest => x ++ Token.comma :: joinTokens (y :: rest)

/-- The text lexes as the tokens before a delimiter. -/
def LexBefore (text : List Char) (toks : List Token) : Prop :=
  ∀ T d rest, isDelim d = true →
    lexRun ⟨LexMode.idle, T⟩ (text ++ d :: rest) =
      lexRun ⟨LexMode.idle, delimToken d :: (toks.reverse ++ T)⟩ rest

/-- The tokens parse as the document, with the source text, wherever a value may stand and the
nesting limit leaves room for `depth` more levels. -/
def ParseOK (toks : List Token) (raw : List Char) (j : JSON) (depth : Nat) : Prop :=
  ∀ stack expect rest, (expect = Expect.value ∨ expect = Expect.valueOrEnd) →
    stack.length + depth ≤ maxNestingDepth →
    parseRun ⟨stack, expect, none⟩ (toks ++ rest) =
      (deliver stack raw j).bind fun st => parseRun st rest

/-- The tokens of one member: the key, the colon, the tokens of the value. -/
def fieldTokens (f : List Char × List Char × List Token × JSON) : List Token :=
  Token.string (encodeString f.1) f.1 :: Token.colon :: f.2.2.1

/-- The member the decoder makes of a field: its key, the source text of its value, its
document. -/
def fieldMember (f : List Char × List Char × List Token × JSON) : String × String × JSON :=
  (String.mk f.1, String.mk f.2.1, f.2.2.2)

mutual
/-- How deep the arrays and objects of the encoding of a value nest. -/
def GoValue.depth : GoValue → Nat
  | GoValue.slice elems => depthElems elems + 1
  | GoValue.map entries => depthFields entries + 1
  | GoValue.struct fields => depthFields fields + 1
  | _ => 0
/-- The deepest nesting among the elements. -/
def depthElems : List GoValue → Nat
  | [] => 0
  | v :: vs => max v.depth (depthElems vs)
/-- The deepest nesting among the values of the fields. -/
def depthFields : List (String × GoValue) → Nat
  | [] => 0
  | (_, v) :: kvs => max v.depth (depthFields kvs)
end

/-- The decoder reads the text as the document, on its own and wherever a value may stand in a
larger text, as long as the nesting limit leaves room for `depth` more levels. -/
def Reads (text : List Char) (j : JSON) (depth : Nat) : Prop :=
  ∃ toks, LexOK text toks ∧ ParseOK toks text j depth

/-- A transport that answers every request with the same status code and body. -/
def stubClient (status : Int) (data : String) : httpClient :=
  fun _ _ _ => ⟨some ⟨status, ⟨data, none⟩⟩, none⟩

/-- A transport that fails every request with the same error and no response. -/
def failingClient (err : GoError) : httpClient :=
  fun _ _ _ => ⟨none, some err⟩

/-- A client of the node at the default local address over the given transport. -/
def localRPC (client : httpClient) (debug : Bool) : SuiRPC :=
  { url := "http://127.0.0.1:9000", client := client, Debug := debug }

/-! ## The error string -/

theorem formatInt_toString (c : Int) : String.mk (formatInt c) = toString c := by
  cases c <;> rfl

theorem digitChar_spec : ∀ k, k < 10 →
    isDigit (Nat.digitChar k) = true ∧ (Nat.digitChar k).toNat - 48 = k := by decide

theorem toDigitsCore_append (fuel n : Nat) (ds : List Char) :
    Nat.toDigitsCore 10 fuel n ds = Nat.toDigitsCore 10 fuel n [] ++ ds := by
  induction fuel generalizing n ds with
  | zero => rfl
  | succ fuel ih =>
    simp only [Nat.toDigitsCore]
    split
    · rfl
    · rw [ih (n / 10) (Nat.digitChar (n % 10) :: ds), ih (n / 10) [Nat.digitChar (n % 10)]]
      simp

/-- One step of `parseDigits`. -/
theorem parseDigits_step_digit (a k : Nat) (hk : k < 10) :
    ((some a : Option Nat).bind fun n =>
      if isDigit (Nat.digitChar k) then some (n * 10 + ((Nat.digitChar k).toNat - 48)) else none) =
      some (a * 10 + k) := by
  obtain ⟨h1, h2⟩ := digitChar_spec k hk
  simp [h1, h2]

theorem foldl_toDigitsCore (fuel n : Nat) (h : n < fuel) :
    (Nat.toDigitsCore 10 fuel n []).foldl
      (fun acc c => acc.bind fun n => if isDigit c then some (n * 10 + (c.toNat - 48)) else none)
      (some 0) = some n ∧ (Nat.toDigitsCore 10 fuel n []).isEmpty = false
      ∧ ∀ c ∈ Nat.toDigitsCore 10 fuel n [], isDigit c = true := by
  induction fuel generalizing n with
  | zero => omega
  | succ fuel ih =>
    have hmod : n % 10 < 10 := Nat.mod_lt _ (by decide)
    simp only [Nat.toDigitsCore]
    split
    · next h0 =>
      have hn : n = n % 10 := by omega
      refine ⟨?_, rfl, ?_⟩
      · rw [List.foldl_cons, List.foldl_nil, parseDigits_step_digit 0 _ hmod]
        simp
        omega
      · intro c hc
        simp only [List.mem_singleton] at hc
        subst hc
        exact (digitChar_spec _ hmod).1
    · next h0 =>
      have hlt : n / 10 < fuel := by omega
      obtain ⟨ih1, ih2, ih3⟩ := ih (n / 10) hlt
      rw [toDigitsCore_append]
      refine ⟨?_, ?_, ?_⟩
      · rw [List.foldl_append, ih1, List.foldl_cons, List.foldl_nil,
          parseDigits_step_digit _ _ hmod]
        congr 1
        omega
      · simp
      · intro c hc
        simp only [List.mem_append, List.mem_singleton] at hc
        rcases hc with hc | hc
        · exact ih3 c hc
        · subst hc
          exact (digitChar_spec _ hmod).1

theorem parseDigits_toDigits (n : Nat) : parseDigits (Nat.toDigits 10 n) = some n := by
  obtain ⟨h1, h2, _⟩ := foldl_toDigitsCore (n + 1) n (Nat.lt_succ_self n)
  unfold parseDigits Nat.toDigits
  rw [h2]
  simpa using h1

theorem parseInt64_of_digits (cs : List Char) (h : ∀ c ∈ cs, isDigit c = true) :
    parseInt64 cs = (parseDigits cs).bind fun n => if n < 2 ^ 63 then some (n : Int) else none := by
  unfold parseInt64
  split
  · next ds =>
    have := h '-' (by simp)
    simp [isDigit] at this
  · rfl

/-- The decimal text of an integer that fits 64 bits reads back as that integer. -/
theorem parseInt64_formatInt (c : Int) (hlo : -(2 : Int) ^ 63 ≤ c) (hhi : c < 2 ^ 63) :
    parseInt64 (formatInt c) = some c := by
  cases c with
  | ofNat k =>
    obtain ⟨_, _, h3⟩ := foldl_toDigitsCore (k + 1) k (Nat.lt_succ_self k)
    have h4 : ∀ c ∈ Nat.toDigits 10 k, isDigit c = true := h3
    rw [formatInt, parseInt64_of_digits _ h4, parseDigits_toDigits]
    have hk : k < 2 ^ 63 := by
      have : (k : Int) < 2 ^ 63 := hhi
      exact_mod_cast this
    have hk2 : k < 9223372036854775808 := by
      have : (2 : Nat) ^ 63 = 9223372036854775808 := by norm_num
      omega
    simp [hk2]
  | negSucc k =>
    rw [formatInt, parseInt64, parseDigits_toDigits]
    have hk : k + 1 ≤ 2 ^ 63 := by
      have h1 : -(2 : Int) ^ 63 ≤ Int.negSucc k := hlo
      rw [Int.negSucc_eq] at h1
      have h2 : ((k : Int) + 1) ≤ 2 ^ 63 := by omega
      exact_mod_cast h2
    have hk2 : k ≤ 9223372036854775807 := by
      have : (2 : Nat) ^ 63 = 9223372036854775808 := by norm_num
      omega
    simp [hk, hk2, Int.negSucc_eq]

/-- C7: for every integer code c (negative included) and every message m, Error returns
exactly "Error " followed by the decimal text of c, " (", m and ")"; the decimal text of a code
that fits 64 bits is the text the decoder reads back as c. -/
theorem SuiError_Error_text (c : Int) (m : String) :
    (SuiError.mk c m).Error = "Error " ++ toString c ++ " (" ++ m ++ ")"
      ∧ (-(2 : Int) ^ 63 ≤ c → c < 2 ^ 63 → parseInt64 (toString c).data = some c) := by
  rw [← formatInt_toString]
  constructor
  · apply String.ext
    simp [SuiError.Error, Sprintf, doPrintf, fmtVerb]
  · exact parseInt64_formatInt c

/-- C7, at the error of the specification. -/
theorem SuiError_Error_text_witness :
    (SuiError.mk (-32601) "Method not found").Error = "Error -32601 (Method not found)" :=
  (SuiError_Error_text (-32601) "Method not found").1.trans (by decide)

/-! ## The response: what `json.Unmarshal` stores -/

theorem Call_of_answers {rpc : SuiRPC} {method : String} {params : Option (List GoValue)}
    {data : String} (h : Answers rpc method params data) :
    (rpc.Call method params).ret =
      match Unmarshal storeResponse data zeroResponse with
      | (_, some err) => Returned.values (none, some err)
      | (resp, none) =>
        match resp.Error with
        | some e => Returned.values (none, some (GoError.sui e))
        | none => Returned.values (resp.Result, none) := by
  obtain ⟨body, status, hm, hp⟩ := h
  unfold SuiRPC.Call
  simp only [hm, hp]
  rcases hu : Unmarshal storeResponse data zeroResponse with ⟨resp, _ | err⟩
  · cases he : resp.Error <;> simp [he]
  · simp

theorem equalFold_disjoint {key a b : String}
    (hab : (a.data.map foldRune = b.data.map foldRune) = False) (h : equalFold key a = true) :
    equalFold key b = false := by
  simp only [equalFold, decide_eq_true_eq, decide_eq_false_iff_not] at h ⊢
  intro hb
  rw [h] at hb
  exact hab.mp hb

theorem storeInt_flag (v : JSON) (cur : Int) : (storeInt v cur).2 = !fitsInt v := by
  cases v <;> simp [storeInt, fitsInt]
  split <;> simp_all

theorem storeString_flag (v : JSON) (cur : String) : (storeString v cur).2 = !fitsString v := by
  cases v <;> simp [storeString, fitsString]

theorem storeSuiErrorField_flag (e : SuiError) (bad : Bool) (m : String × String × JSON) :
    (storeSuiErrorField (e, bad) m).2 =
      (bad || !((!equalFold m.1 "code" || fitsInt m.2.2)
        && (!equalFold m.1 "message" || fitsString m.2.2))) := by
  obtain ⟨key, raw, v⟩ := m
  unfold storeSuiErrorField
  by_cases hc : equalFold key "code" = true
  · have hm : equalFold key "message" = false := equalFold_disjoint (by decide) hc
    simp [hc, hm, storeInt_flag]
  · by_cases hm : equalFold key "message" = true
    · simp [hc, hm, storeString_flag]
    · simp [hc, hm]


theorem foldl_storeSuiErrorField_flag (members : List (String × String × JSON)) (e : SuiError)
    (bad : Bool) :
    (members.foldl storeSuiErrorField (e, bad)).2 =
      (bad || !(members.all fun m =>
        (!equalFold m.1 "code" || fitsInt m.2.2)
          && (!equalFold m.1 "message" || fitsString m.2.2))) := by
  induction members generalizing e bad with
  | nil => simp
  | cons m rest ih =>
    rw [List.foldl_cons]
    rcases hs : storeSuiErrorField (e, bad) m with ⟨e2, bad2⟩
    have hflag := storeSuiErrorField_flag e bad m
    rw [hs] at hflag
    simp only at hflag
    rw [ih, hflag, List.all_cons]
    cases bad <;> simp [Bool.and_comm]

theorem storeSuiError_flag (v : JSON) (cur : SuiError) :
    (storeSuiError v cur).2 = !fitsSuiError v := by
  cases v <;> simp [storeSuiError, fitsSuiError, foldl_storeSuiErrorField_flag]

theorem storeSuiErrorPtr_flag (v : JSON) (cur : Option SuiError) :
    (storeSuiErrorPtr v cur).2 = !fitsSuiError v := by
  cases v <;> simp [storeSuiErrorPtr, storeSuiError_flag]
  simp [fitsSuiError]

theorem storeResponseField_flag (resp : suiResponse) (bad : Bool) (m : String × String × JSON) :
    (storeResponseField (resp, bad) m).2 =
      (bad || !((!equalFold m.1 "id" || fitsInt m.2.2)
        && (!equalFold m.1 "jsonrpc" || fitsString m.2.2)
        && (!equalFold m.1 "error" || fitsSuiError m.2.2))) := by
  obtain ⟨key, raw, v⟩ := m
  unfold storeResponseField
  by_cases hi : equalFold key "id" = true
  · have hj : equalFold key "jsonrpc" = false := equalFold_disjoint (by decide) hi
    have he : equalFold key "error" = false := equalFold_disjoint (by decide) hi
    simp [hi, hj, he, storeInt_flag]
  · by_cases hj : equalFold key "jsonrpc" = true
    · have he : equalFold key "error" = false := equalFold_disjoint (by decide) hj
      simp [hi, hj, he, storeString_flag]
    · by_cases hr : equalFold key "result" = true
      · have he : equalFold key "error" = false := equalFold_disjoint (by decide) hr
        simp [hi, hj, hr, he]
      · by_cases he : equalFold key "error" = true
        · simp [hi, hj, hr, he, storeSuiErrorPtr_flag]
        · simp [hi, hj, hr, he]

theorem foldl_storeResponseField_flag (members : List (String × String × JSON))
    (resp : suiResponse) (bad : Bool) :
    (members.foldl storeResponseField (resp, bad)).2 =
      (bad || !(members.all fun m =>
        (!equalFold m.1 "id" || fitsInt m.2.2) && (!equalFold m.1 "jsonrpc" || fitsString m.2.2)
          && (!equalFold m.1 "error" || fitsSuiError m.2.2))) := by
  induction members generalizing resp bad with
  | nil => simp
  | cons m rest ih =>
    rw [List.foldl_cons]
    rcases hs : storeResponseField (resp, bad) m with ⟨resp2, bad2⟩
    have hflag := storeResponseField_flag resp bad m
    rw [hs] at hflag
    simp only at hflag
    rw [ih, hflag, List.all_cons]
    cases bad <;> simp [Bool.and_comm]

theorem storeResponse_flag (v : JSON) (cur : suiResponse) :
    (storeResponse v cur).2 = !fitsResponse v := by
  cases v <;> simp [storeResponse, fitsResponse, foldl_storeResponseField_flag]

/-- The error `json.Unmarshal` returns for a response body: a syntax error when the text is not
one JSON document, a type error when the document does not fit the response, none otherwise. -/
theorem Unmarshal_response_error (data : String) :
    (Unmarshal storeResponse data zeroResponse).2 =
      match parseJSON data.data with
      | none => some GoError.invalidJSON
      | some v => if fitsResponse v then none else some GoError.typeMismatch := by
  unfold Unmarshal
  cases hp : parseJSON data.data with
  | none => rfl
  | some v =>
    have hflag := storeResponse_flag v zeroResponse
    rcases hs : storeResponse v zeroResponse with ⟨new, bad⟩
    rw [hs] at hflag
    simp only at hflag
    cases bad <;> simp_all


theorem storeResponseField_result (resp : suiResponse) (bad : Bool)
    (m : String × String × JSON) :
    (storeResponseField (resp, bad) m).1.Result =
      if equalFold m.1 "result" then some m.2.1 else resp.Result := by
  obtain ⟨key, raw, v⟩ := m
  unfold storeResponseField
  by_cases hi : equalFold key "id" = true
  · have hr : equalFold key "result" = false := equalFold_disjoint (by decide) hi
    simp [hi, hr]
  · by_cases hj : equalFold key "jsonrpc" = true
    · have hr : equalFold key "result" = false := equalFold_disjoint (by decide) hj
      simp [hi, hj, hr]
    · by_cases hr : equalFold key "result" = true
      · simp [hi, hj, hr]
      · by_cases he : equalFold key "error" = true
        · simp [hi, hj, hr, he]
        · simp [hi, hj, hr, he]

theorem foldl_storeResponseField_result (members : List (String × String × JSON))
    (resp : suiResponse) (bad : Bool) :
    (members.foldl storeResponseField (resp, bad)).1.Result =
      match lastMember "result" members with
      | some m => some m.2.1
      | none => resp.Result := by
  induction members using List.reverseRecOn with
  | nil => simp [lastMember]
  | append_singleton init m ih =>
    rw [List.foldl_append, List.foldl_cons, List.foldl_nil]
    rcases hs : init.foldl storeResponseField (resp, bad) with ⟨resp2, bad2⟩
    rw [hs] at ih
    simp only at ih
    rw [storeResponseField_result]
    by_cases hr : equalFold m.1 "result" = true
    · simp [lastMember, List.filter_append, hr]
    · simp [lastMember, List.filter_append, hr] at ih ⊢
      exact ih

/-- The raw message `json.Unmarshal` leaves in the response is the source text of the `result`
member of the body. -/
theorem Unmarshal_response_result (data : String) :
    (Unmarshal storeResponse data zeroResponse).1.Result = memberText "result" data := by
  unfold Unmarshal memberText
  cases parseJSON data.data with
  | none => rfl
  | some v =>
    cases v with
    | object members =>
      have h := foldl_storeResponseField_result members zeroResponse false
      simp only [storeResponse]
      rcases hs : members.foldl storeResponseField (zeroResponse, false) with ⟨new, bad⟩
      rw [hs] at h
      simp only at h
      cases bad <;> simp only [h] <;> cases lastMember "result" members <;> rfl
    | _ => rfl


/-! ## The request: what the decoder reads from the text `json.Marshal` writes -/

theorem hexValue_hexDigit : ∀ k, k < 16 → hexValue (hexDigit k) = some k := by decide

theorem lexRun_cons (st : LexState) (c : Char) (cs : List Char) :
    lexRun st (c :: cs) = (lexStep st c).bind fun st2 => lexRun st2 cs := by
  rw [lexRun]
  cases lexStep st c <;> rfl

theorem toNat_lt_of_low (c : Char) (h : c.toNat < 32 ∨ c = '<' ∨ c = '>' ∨ c = '&') :
    c.toNat < 64 := by
  rcases h with h | h | h | h
  · omega
  · subst h; decide
  · subst h; decide
  · subst h; decide

theorem lexRun_escapeRune (c : Char) (raw : List Char) (units : List StrUnit) (toks : List Token)
    (rest : List Char) :
    lexRun ⟨LexMode.inString raw units, toks⟩ (escapeRune c ++ rest) =
      lexRun ⟨LexMode.inString ((escapeRune c).reverse ++ raw) (escapeUnit c :: units), toks⟩
        rest := by
  unfold escapeRune escapeUnit
  by_cases h1 : c = '"'
  · subst h1
    simp [lexRun_cons, lexStep, simpleEscape]
  by_cases h2 : c = '\\'
  · subst h2
    simp [lexRun_cons, lexStep, simpleEscape]
  by_cases h6 : c = '\x08'
  · subst h6
    simp [lexRun_cons, lexStep, simpleEscape]
  by_cases h7 : c = '\x0c'
  · subst h7
    simp [lexRun_cons, lexStep, simpleEscape]
  by_cases h3 : c = '\n'
  · subst h3
    simp [lexRun_cons, lexStep, simpleEscape]
  by_cases h4 : c = '\r'
  · subst h4
    simp [lexRun_cons, lexStep, simpleEscape]
  by_cases h5 : c = '\t'
  · subst h5
    simp [lexRun_cons, lexStep, simpleEscape]
  simp only [h1, h2, h3, h4, h5, h6, h7, if_false, false_or]
  by_cases hlow : c.toNat < 32 ∨ c = '<' ∨ c = '>' ∨ c = '&'
  · have hlt := toNat_lt_of_low c hlow
    have hq : c.toNat / 16 < 16 := by omega
    have hr : c.toNat % 16 < 16 := by omega
    have hv : (0 * 16 + 0) * 16 * 16 + c.toNat / 16 * 16 + c.toNat % 16 = c.toNat := by omega
    have hl : (c.toNat < 32 ∨ c = '<' ∨ c = '>' ∨ c = '&' ∨ c.toNat = 0x2028 ∨ c.toNat = 0x2029) := by
      tauto
    have h0 : hexValue '0' = some 0 := by decide
    simp only [hlow, hl, if_true]
    simp [lexRun_cons, lexStep, simpleEscape, hexValue_hexDigit _ hq, hexValue_hexDigit _ hr, h0]
    rw [Nat.div_add_mod' c.toNat 16]
  · by_cases h8 : c.toNat = 0x2028
    · have hc : c = Char.ofNat 0x2028 := by rw [← h8, Char.ofNat_toNat]
      subst hc
      simp [lexRun_cons, lexStep, simpleEscape, hexValue, isDigit]
    by_cases h9 : c.toNat = 0x2029
    · have hc : c = Char.ofNat 0x2029 := by rw [← h9, Char.ofNat_toNat]
      subst hc
      simp [lexRun_cons, lexStep, simpleEscape, hexValue, isDigit]
    have hl : ¬(c.toNat < 32 ∨ c = '<' ∨ c = '>' ∨ c = '&' ∨ c.toNat = 0x2028 ∨ c.toNat = 0x2029) := by
      tauto
    obtain ⟨h32, hlt, hgt, hamp⟩ :
        ¬c.toNat < 32 ∧ ¬c = '<' ∧ ¬c = '>' ∧ ¬c = '&' := by tauto
    simp [hl, h8, h9, lexRun_cons, lexStep, h1, h2, h32, hlt, hgt, hamp]


theorem lexRun_flatMap_escapeRune (s : List Char) (raw : List Char) (units : List StrUnit)
    (toks : List Token) (rest : List Char) :
    lexRun ⟨LexMode.inString raw units, toks⟩ (s.flatMap escapeRune ++ rest) =
      lexRun ⟨LexMode.inString ((s.flatMap escapeRune).reverse ++ raw)
        ((s.map escapeUnit).reverse ++ units), toks⟩ rest := by
  induction s generalizing raw units with
  | nil => rfl
  | cons c cs ih =>
    rw [List.flatMap_cons, List.append_assoc, lexRun_escapeRune, ih]
    simp

theorem decodeUnitsFrom_escape_toNat (c : Char) (rest : List StrUnit) :
    decodeUnitsFrom none (StrUnit.escape c.toNat :: rest) = c :: decodeUnitsFrom none rest := by
  have hv := c.valid
  have hn : c.toNat = c.val.toNat := rfl
  rw [decodeUnitsFrom]
  have h1 : ¬(0xD800 ≤ c.toNat ∧ c.toNat < 0xDC00) := by
    rcases hv with h | ⟨h, _⟩ <;> omega
  have h2 : isSurrogate c.toNat = false := by
    simp only [isSurrogate, decide_eq_false_iff_not]
    rcases hv with h | ⟨h, _⟩ <;> omega
  simp [h1, h2, Char.ofNat_toNat]

theorem decodeUnitsFrom_escapeUnit (c : Char) (rest : List StrUnit) :
    decodeUnitsFrom none (escapeUnit c :: rest) = c :: decodeUnitsFrom none rest := by
  unfold escapeUnit
  split
  · rw [decodeUnitsFrom]
  · split
    · rw [decodeUnitsFrom_escape_toNat]
    · rw [decodeUnitsFrom]

theorem decodeUnits_map_escapeUnit (s : List Char) : decodeUnits (s.map escapeUnit) = s := by
  unfold decodeUnits
  induction s with
  | nil => rfl
  | cons c cs ih => rw [List.map_cons, decodeUnitsFrom_escapeUnit, ih]

theorem lexRun_append (st : LexState) (a b : List Char) :
    lexRun st (a ++ b) = (lexRun st a).bind fun st2 => lexRun st2 b := by
  induction a generalizing st with
  | nil => rfl
  | cons c cs ih =>
    rw [List.cons_append, lexRun_cons, lexRun_cons]
    cases lexStep st c with
    | none => rfl
    | some st2 => exact ih st2

theorem lexRun_encodeString (s : List Char) (toks : List Token) (rest : List Char) :
    lexRun ⟨LexMode.idle, toks⟩ (encodeString s ++ rest) =
      lexRun ⟨LexMode.idle, Token.string (encodeString s) s :: toks⟩ rest := by
  unfold encodeString
  have hq : lexStep ⟨LexMode.idle, toks⟩ '"' = some ⟨LexMode.inString ['"'] [], toks⟩ := rfl
  rw [List.cons_append, lexRun_cons, hq, Option.bind, List.append_assoc,
    lexRun_flatMap_escapeRune s ['"'] [] toks (['"'] ++ rest)]
  simp only [List.singleton_append, lexRun_cons, lexStep, Option.bind, if_true, List.append_nil,
    List.reverse_reverse, decodeUnits_map_escapeUnit]
  simp

/-- The request of a call without parameters, read back by the decoder: an object with the
members id = 1, jsonrpc = "2.0", method = the method and params = null. -/
theorem parseJSON_request_nil (method : String) :
    parseJSON ("\x7b\"id\":1,\"jsonrpc\":\"2.0\",\"method\":".data ++ encodeString method.data
        ++ ",\"params\":".data ++ "null".data ++ "\x7d".data) =
      some (JSON.object [("id", "1", JSON.number "1"), ("jsonrpc", "\"2.0\"", JSON.string "2.0"),
        ("method", String.mk (encodeString method.data), JSON.string method),
        ("params", "null", JSON.null)]) := by
  unfold parseJSON tokenize
  rw [List.append_assoc, List.append_assoc, List.append_assoc, lexRun_append]
  have hpre : lexRun ⟨LexMode.idle, []⟩ "\x7b\"id\":1,\"jsonrpc\":\"2.0\",\"method\":".data =
      some ⟨LexMode.idle, [Token.colon, Token.string "\"method\"".data "method".data, Token.comma,
        Token.string "\"2.0\"".data "2.0".data, Token.colon,
        Token.string "\"jsonrpc\"".data "jsonrpc".data, Token.comma, Token.number "1".data,
        Token.colon, Token.string "\"id\"".data "id".data, Token.beginObject]⟩ := rfl
  have hsuf : ∀ toks, lexRun ⟨LexMode.idle, toks⟩
      (",\"params\":".data ++ ("null".data ++ "\x7d".data)) =
      some ⟨LexMode.idle, Token.endObject :: Token.literal "null".data JSON.null :: Token.colon
        :: Token.string "\"params\"".data "params".data :: Token.comma :: toks⟩ := fun _ => rfl
  rw [hpre, Option.bind, lexRun_encodeString, hsuf]
  rfl

/-! ## The request Call sends -/

theorem Marshal_request (method : String) (params : Option (List GoValue)) (text : List Char)
    (h : encodeValue (GoValue.ofSlice params) = some text) :
    Marshal (suiRequest.toValue ⟨1, "2.0", method, params⟩) =
      Except.ok (String.mk ("\x7b\"id\":1,\"jsonrpc\":\"2.0\",\"method\":".data
        ++ encodeString method.data ++ ",\"params\":".data ++ text ++ "\x7d".data)) := by
  have h1 : formatInt 1 = ['1'] := by decide
  have h2 : encodeString "2.0".data = "\"2.0\"".data := by decide
  have hid : encodeString "id".data = "\"id\"".data := by decide
  have hjs : encodeString "jsonrpc".data = "\"jsonrpc\"".data := by decide
  have hme : encodeString "method".data = "\"method\"".data := by decide
  have hpa : encodeString "params".data = "\"params\"".data := by decide
  simp only [Marshal, suiRequest.toValue, encodeValue, encodeFields, h, Option.map_some',
    List.map, joinComma, encodeField, h1, h2, hid, hjs, hme, hpa]
  simp

theorem posts_Call {rpc : SuiRPC} {method : String} {params : Option (List GoValue)}
    {body : String} (hm : Marshal (suiRequest.toValue ⟨1, "2.0", method, params⟩) = Except.ok body) :
    posts (rpc.Call method params).trace = [Event.Post rpc.url "application/json" body] := by
  unfold SuiRPC.Call
  simp only [hm]
  rcases rpc.client rpc.url "application/json" body with ⟨_ | ⟨status, data, _ | rerr⟩, _ | err⟩ <;>
    simp [posts, Event.isPost]
  · cases rpc.Debug <;>
      rcases Unmarshal storeResponse data zeroResponse with ⟨resp, _ | uerr⟩ <;>
        simp [Event.isPost] <;> cases resp.Error <;> simp [Event.isPost]

theorem lexIdle_delim (toks : List Token) (d : Char) (hd : isDelim d = true) :
    lexIdle toks d = some ⟨LexMode.idle, delimToken d :: toks⟩ := by
  simp only [isDelim, Bool.decide_or, Bool.or_eq_true, decide_eq_true_eq] at hd
  rcases hd with h | h | h <;> subst h <;> rfl

theorem delim_not_numberChar (d : Char) (hd : isDelim d = true) : isNumberChar d = false := by
  simp only [isDelim, Bool.decide_or, Bool.or_eq_true, decide_eq_true_eq] at hd
  rcases hd with h | h | h <;> subst h <;> rfl

theorem delim_not_lower (d : Char) (hd : isDelim d = true) : isLower d = false := by
  simp only [isDelim, Bool.decide_or, Bool.or_eq_true, decide_eq_true_eq] at hd
  rcases hd with h | h | h <;> subst h <;> rfl

/-- Inside a number, the characters of a number are collected. -/
theorem lexRun_inNumber (cs : List Char) (hcs : ∀ c ∈ cs, isNumberChar c = true)
    (rawRev : List Char) (toks : List Token) (rest : List Char) :
    lexRun ⟨LexMode.inNumber rawRev, toks⟩ (cs ++ rest) =
      lexRun ⟨LexMode.inNumber (cs.reverse ++ rawRev), toks⟩ rest := by
  induction cs generalizing rawRev with
  | nil => rfl
  | cons c cs ih =>
    have hc : isNumberChar c = true := hcs c (by simp)
    rw [List.cons_append, lexRun_cons]
    simp only [lexStep, hc, if_true, Option.bind]
    rw [ih (fun x hx => hcs x (by simp [hx]))]
    simp

theorem dropDigits_of_digits (cs : List Char) (h : ∀ c ∈ cs, isDigit c = true) :
    dropDigits cs = [] := by
  induction cs with
  | nil => rfl
  | cons c cs ih =>
    rw [dropDigits, if_pos (h c (by simp))]
    exact ih fun x hx => h x (by simp [hx])

theorem toDigitsCore_head (fuel n : Nat) (h1 : 1 ≤ n) (h : n < fuel) :
    ∃ c rest, Nat.toDigitsCore 10 fuel n [] = c :: rest ∧ c ≠ '0' := by
  induction fuel generalizing n with
  | zero => omega
  | succ fuel ih =>
    simp only [Nat.toDigitsCore]
    split
    · next h0 =>
      refine ⟨Nat.digitChar (n % 10), [], rfl, ?_⟩
      have hn : n % 10 = n := by omega
      rw [hn]
      have : n < 10 := by omega
      interval_cases n <;> decide
    · next h0 =>
      obtain ⟨c, rest, hc, hne⟩ := ih (n / 10) (by omega) (by omega)
      rw [toDigitsCore_append, hc]
      exact ⟨c, rest ++ [Nat.digitChar (n % 10)], rfl, hne⟩

theorem validUnsigned_toDigits (k : Nat) : validUnsigned (Nat.toDigits 10 k) = true := by
  obtain ⟨_, _, hdig⟩ := foldl_toDigitsCore (k + 1) k (Nat.lt_succ_self k)
  by_cases hk : k = 0
  · subst hk
    rfl
  · obtain ⟨c, rest, hc, hne⟩ := toDigitsCore_head (k + 1) k (by omega) (Nat.lt_succ_self k)
    unfold Nat.toDigits
    rw [hc] at hdig ⊢
    rw [validUnsigned, if_neg hne, dropDigits_of_digits rest fun x hx => hdig x (by simp [hx])]
    simp [hdig c (by simp), validFraction, validExponent]

theorem digit_numberChar (c : Char) (h : isDigit c = true) : isNumberChar c = true := by
  simp [isNumberChar, h]

/-- The decimal text of an integer is a number literal: it starts with a minus sign or a
digit, holds characters of a number only, and follows the grammar. -/
theorem formatInt_number (n : Int) :
    ∃ c cs, formatInt n = c :: cs ∧ (c = '-' ∨ isDigit c = true)
      ∧ (∀ x ∈ cs, isNumberChar x = true) ∧ validNumber (formatInt n) = true := by
  cases n with
  | ofNat k =>
    obtain ⟨_, hne, hdig⟩ := foldl_toDigitsCore (k + 1) k (Nat.lt_succ_self k)
    have hv := validUnsigned_toDigits k
    have hf : formatInt (Int.ofNat k) = Nat.toDigitsCore 10 (k + 1) k [] := rfl
    unfold Nat.toDigits at hv
    rw [hf]
    cases hcs : Nat.toDigitsCore 10 (k + 1) k [] with
    | nil => simp [hcs] at hne
    | cons c cs =>
      rw [hcs] at hdig hv
      have hc : c ≠ '-' := by
        intro h
        have := hdig c (by simp)
        rw [h] at this
        simp [isDigit] at this
      refine ⟨c, cs, rfl, Or.inr (hdig c (by simp)),
        fun x hx => digit_numberChar x (hdig x (by simp [hx])), ?_⟩
      unfold validNumber
      split
      · next heq =>
        rw [List.cons.injEq] at heq
        exact absurd heq.1 hc
      · exact hv
  | negSucc k =>
    obtain ⟨_, _, hdig⟩ := foldl_toDigitsCore (k + 1 + 1) (k + 1) (Nat.lt_succ_self _)
    have hf : formatInt (Int.negSucc k) = '-' :: Nat.toDigits 10 (k + 1) := rfl
    rw [hf]
    refine ⟨'-', Nat.toDigits 10 (k + 1), rfl, Or.inl rfl,
      fun x hx => digit_numberChar x (hdig x hx), ?_⟩
    unfold validNumber
    exact validUnsigned_toDigits (k + 1)

theorem lexRun_idle_delim (T : List Token) (d : Char) (rest : List Char)
    (hd : isDelim d = true) :
    lexRun ⟨LexMode.idle, T⟩ (d :: rest) = lexRun ⟨LexMode.idle, delimToken d :: T⟩ rest := by
  rw [lexRun_cons]
  simp only [lexStep, lexIdle_delim T d hd, Option.bind]

theorem lexOK_of_idle (text : List Char) (toks : List Token)
    (h : ∀ T rest, lexRun ⟨LexMode.idle, T⟩ (text ++ rest) =
      lexRun ⟨LexMode.idle, toks.reverse ++ T⟩ rest) : LexOK text toks := by
  constructor
  · intro T d rest hd
    rw [h, lexRun_idle_delim _ d rest hd]
  · intro T
    have := h T []
    rw [List.append_nil] at this
    rw [this]
    rfl

theorem lexOK_string (s : List Char) : LexOK (encodeString s) [Token.string (encodeString s) s] :=
  lexOK_of_idle _ _ fun T rest => lexRun_encodeString s T rest

theorem lexOK_number (c : Char) (cs : List Char) (hc : c = '-' ∨ isDigit c = true)
    (hcs : ∀ x ∈ cs, isNumberChar x = true) (hv : validNumber (c :: cs) = true) :
    LexOK (c :: cs) [Token.number (c :: cs)] := by
  have hstart : ∀ T, lexStep ⟨LexMode.idle, T⟩ c = some ⟨LexMode.inNumber [c], T⟩ := by
    intro T
    rcases hc with h | h
    · subst h
      rfl
    · have h48 : 48 ≤ c.toNat ∧ c.toNat ≤ 57 := by simpa [isDigit] using h
      have hne : ∀ x : Char, x.toNat < 48 ∨ 57 < x.toNat → c ≠ x := by
        intro x hx heq
        subst heq
        omega
      simp only [lexStep, lexIdle, isSpace]
      simp [hne ' ' (by decide), hne '\t' (by decide), hne '\r' (by decide),
        hne '\n' (by decide), hne '\x7b' (by decide), hne '\x7d' (by decide),
        hne '[' (by decide), hne ']' (by decide), hne ':' (by decide), hne ',' (by decide),
        hne '"' (by decide), h]
  have hrev : (cs.reverse ++ [c]).reverse = c :: cs := by simp
  constructor
  · intro T d rest hd
    rw [List.cons_append, lexRun_cons, hstart, Option.bind, lexRun_inNumber cs hcs, lexRun_cons]
    simp only [lexStep, delim_not_numberChar d hd, hrev, hv, if_true, Bool.false_eq_true,
      if_false, lexIdle_delim _ d hd, Option.bind]
    rfl
  · intro T
    rw [lexRun_cons, hstart, Option.bind]
    have := lexRun_inNumber cs hcs [c] T []
    rw [List.append_nil] at this
    rw [this]
    simp [lexRun, lexFinish, hv]

theorem lexRun_inWord (cs : List Char) (hcs : ∀ c ∈ cs, isLower c = true)
    (rawRev : List Char) (toks : List Token) (rest : List Char) :
    lexRun ⟨LexMode.inWord rawRev, toks⟩ (cs ++ rest) =
      lexRun ⟨LexMode.inWord (cs.reverse ++ rawRev), toks⟩ rest := by
  induction cs generalizing rawRev with
  | nil => rfl
  | cons c cs ih =>
    have hc : isLower c = true := hcs c (by simp)
    rw [List.cons_append, lexRun_cons]
    simp only [lexStep, hc, if_true, Option.bind]
    rw [ih (fun x hx => hcs x (by simp [hx]))]
    simp

theorem lexOK_word (c : Char) (cs : List Char) (tok : Token)
    (hstart : ∀ T, lexStep ⟨LexMode.idle, T⟩ c = some ⟨LexMode.inWord [c], T⟩)
    (hcs : ∀ x ∈ cs, isLower x = true) (ht : wordToken (c :: cs) = some tok) :
    LexOK (c :: cs) [tok] := by
  have hrev : (cs.reverse ++ [c]).reverse = c :: cs := by simp
  constructor
  · intro T d rest hd
    rw [List.cons_append, lexRun_cons, hstart, Option.bind, lexRun_inWord cs hcs, lexRun_cons]
    simp only [lexStep, delim_not_lower d hd, hrev, ht, Bool.false_eq_true, if_false,
      lexIdle_delim _ d hd, Option.bind]
    rfl
  · intro T
    rw [lexRun_cons, hstart, Option.bind]
    have := lexRun_inWord cs hcs [c] T []
    rw [List.append_nil] at this
    rw [this]
    simp [lexRun, lexFinish, ht]

theorem lexOK_null : LexOK "null".data [Token.literal "null".data JSON.null] :=
  lexOK_word 'n' "ull".data _ (fun _ => rfl) (by decide) rfl

theorem lexOK_true : LexOK "true".data [Token.literal "true".data (JSON.bool true)] :=
  lexOK_word 't' "rue".data _ (fun _ => rfl) (by decide) rfl

theorem lexOK_false : LexOK "false".data [Token.literal "false".data (JSON.bool false)] :=
  lexOK_word 'f' "alse".data _ (fun _ => rfl) (by decide) rfl

theorem lexBefore_joinComma (parts : List (List Char)) (tokss : List (List Token))
    (h : List.Forall₂ LexBefore parts tokss) (hne : parts ≠ []) :
    LexBefore (joinComma parts) (joinTokens tokss) := by
  induction h with
  | nil => exact absurd rfl hne
  | @cons x tx rest trest hx hrest ih =>
    cases hrest with
    | nil => simpa [joinComma, joinTokens] using hx
    | @cons y ty rest2 trest2 hy hrest2 =>
      intro T d rest' hd
      have ih2 := ih (by simp) (Token.comma :: (tx.reverse ++ T)) d rest' hd
      simp only [joinComma, joinTokens, List.append_assoc, List.cons_append]
      rw [hx T ',' _ (by decide)]
      have hc : delimToken ',' = Token.comma := rfl
      rw [hc, ih2]
      simp

theorem lexStep_idle_punct (T : List Token) :
    lexStep ⟨LexMode.idle, T⟩ '[' = some ⟨LexMode.idle, Token.beginArray :: T⟩
      ∧ lexStep ⟨LexMode.idle, T⟩ ']' = some ⟨LexMode.idle, Token.endArray :: T⟩
      ∧ lexStep ⟨LexMode.idle, T⟩ '\x7b' = some ⟨LexMode.idle, Token.beginObject :: T⟩
      ∧ lexStep ⟨LexMode.idle, T⟩ '\x7d' = some ⟨LexMode.idle, Token.endObject :: T⟩
      ∧ lexStep ⟨LexMode.idle, T⟩ ':' = some ⟨LexMode.idle, Token.colon :: T⟩ :=
  ⟨rfl, rfl, rfl, rfl, rfl⟩

/-- A bracketed, comma-separated sequence lexes as its tokens between the bracket tokens. -/
theorem lexOK_bracketed (op cl : Char) (opTok clTok : Token)
    (hop : ∀ T, lexStep ⟨LexMode.idle, T⟩ op = some ⟨LexMode.idle, opTok :: T⟩)
    (hcl : isDelim cl = true) (hclTok : delimToken cl = clTok)
    (parts : List (List Char)) (tokss : List (List Token))
    (h : List.Forall₂ LexBefore parts tokss) :
    LexOK (op :: (joinComma parts ++ [cl])) (opTok :: (joinTokens tokss ++ [clTok])) := by
  apply lexOK_of_idle
  intro T rest
  rw [List.cons_append, lexRun_cons, hop, Option.bind, List.append_assoc, List.singleton_append]
  by_cases hne : parts = []
  · subst hne
    cases h
    rw [joinComma, List.nil_append, lexRun_idle_delim _ cl rest hcl, hclTok]
    simp [joinTokens]
  · rw [lexBefore_joinComma parts tokss h hne (opTok :: T) cl rest hcl, hclTok]
    simp

theorem lexBefore_field (k part : List Char) (toks : List Token) (h : LexBefore part toks) :
    LexBefore (encodeField (k, part)) (Token.string (encodeString k) k :: Token.colon :: toks) := by
  intro T d rest hd
  unfold encodeField
  simp only [List.append_assoc, List.cons_append]
  rw [lexRun_encodeString, lexRun_cons, (lexStep_idle_punct _).2.2.2.2, Option.bind, h _ d rest hd]
  simp

theorem parseRun_cons (st : ParseState) (tok : Token) (toks : List Token) :
    parseRun st (tok :: toks) = (parseStep st tok).bind fun st2 => parseRun st2 toks := by
  rw [parseRun]
  cases parseStep st tok <;> rfl

theorem parseOK_mono {toks : List Token} {raw : List Char} {j : JSON} {d d2 : Nat}
    (h : ParseOK toks raw j d) (hle : d ≤ d2) : ParseOK toks raw j d2 :=
  fun stack expect rest he hd => h stack expect rest he (by omega)

theorem parseOK_string (raw val : List Char) :
    ParseOK [Token.string raw val] raw (JSON.string (String.mk val)) 0 := by
  intro stack expect rest he _
  rw [List.singleton_append, parseRun_cons]
  rcases he with h | h <;> subst h <;> rfl

theorem parseOK_number (raw : List Char) :
    ParseOK [Token.number raw] raw (JSON.number (String.mk raw)) 0 := by
  intro stack expect rest he _
  rw [List.singleton_append, parseRun_cons]
  rcases he with h | h <;> subst h <;> rfl

theorem parseOK_literal (raw : List Char) (v : JSON) :
    ParseOK [Token.literal raw v] raw v 0 := by
  intro stack expect rest he _
  rw [List.singleton_append, parseRun_cons]
  rcases he with h | h <;> subst h <;> rfl

theorem deliver_array (rawRev : List Char) (itemsRev : List JSON) (below : List Frame)
    (raw : List Char) (v : JSON) :
    deliver (Frame.array rawRev itemsRev :: below) raw v =
      some ⟨Frame.array (raw.reverse ++ rawRev) (v :: itemsRev) :: below, Expect.commaOrEnd,
        none⟩ := rfl

theorem deliver_object (rawRev : List Char) (membersRev : List (String × String × JSON))
    (k : String) (below : List Frame) (raw : List Char) (v : JSON) :
    deliver (Frame.object rawRev membersRev (some k) :: below) raw v =
      some ⟨Frame.object (raw.reverse ++ rawRev) ((k, String.mk raw, v) :: membersRev) none
        :: below, Expect.commaOrEnd, none⟩ := rfl

theorem parseStep_comma_array (rawRev : List Char) (itemsRev : List JSON) (below : List Frame) :
    parseStep ⟨Frame.array rawRev itemsRev :: below, Expect.commaOrEnd, none⟩ Token.comma =
      some ⟨Frame.array (',' :: rawRev) itemsRev :: below, Expect.value, none⟩ := rfl

theorem parseStep_endArray (rawRev : List Char) (itemsRev : List JSON) (below : List Frame) :
    parseStep ⟨Frame.array rawRev itemsRev :: below, Expect.commaOrEnd, none⟩ Token.endArray =
      deliver below (']' :: rawRev).reverse (JSON.array itemsRev.reverse) := rfl

/-- The items of an array after its opening bracket, up to and including the closing one. -/
theorem parseRun_items (items : List (List Char × List Token × JSON)) (depth : Nat)
    (h : ∀ it ∈ items, ParseOK it.2.1 it.1 it.2.2 depth) (hne : items ≠ [])
    (stack : List Frame) (hd : stack.length + 1 + depth ≤ maxNestingDepth)
    (rawRev : List Char) (itemsRev : List JSON) (expect : Expect)
    (he : expect = Expect.value ∨ expect = Expect.valueOrEnd) (rest : List Token) :
    parseRun ⟨Frame.array rawRev itemsRev :: stack, expect, none⟩
        (joinTokens (items.map fun it => it.2.1) ++ Token.endArray :: rest) =
      (deliver stack (']' :: ((joinComma (items.map fun it => it.1)).reverse ++ rawRev)).reverse
        (JSON.array (itemsRev.reverse ++ items.map fun it => it.2.2))).bind
        fun st => parseRun st rest := by
  induction items generalizing rawRev itemsRev expect with
  | nil => exact absurd rfl hne
  | cons it rest2 ih =>
    have hit := h it (by simp)
    have hstep := hit (Frame.array rawRev itemsRev :: stack) expect
    have hlen : (Frame.array rawRev itemsRev :: stack).length + depth ≤ maxNestingDepth := by
      simpa [Nat.add_assoc] using hd
    cases rest2 with
    | nil =>
      simp only [List.map, joinTokens, joinComma]
      rw [hstep _ he hlen, deliver_array, Option.bind, parseRun_cons, parseStep_endArray]
      simp
    | cons it2 rest3 =>
      have ih2 := ih (fun x hx => h x (by simp [hx])) (by simp) (',' :: (it.1.reverse ++ rawRev))
        (it.2.2 :: itemsRev) Expect.value (Or.inl rfl)
      simp only [List.map, joinTokens, joinComma, List.append_assoc, List.cons_append] at ih2 ⊢
      rw [hstep _ he hlen, deliver_array, Option.bind, parseRun_cons, parseStep_comma_array,
        Option.bind, ih2]
      simp

theorem parseStep_beginArray (stack : List Frame) (expect : Expect)
    (he : expect = Expect.value ∨ expect = Expect.valueOrEnd)
    (hd : stack.length < maxNestingDepth) :
    parseStep ⟨stack, expect, none⟩ Token.beginArray =
      some ⟨Frame.array ['['] [] :: stack, Expect.valueOrEnd, none⟩ := by
  simp [parseStep, he, hd]

theorem parseStep_beginObject (stack : List Frame) (expect : Expect)
    (he : expect = Expect.value ∨ expect = Expect.valueOrEnd)
    (hd : stack.length < maxNestingDepth) :
    parseStep ⟨stack, expect, none⟩ Token.beginObject =
      some ⟨Frame.object ['\x7b'] [] none :: stack, Expect.keyOrEnd, none⟩ := by
  simp [parseStep, he, hd]

/-- An array parses as the array of its items, one level deeper than they are. -/
theorem parseOK_array (items : List (List Char × List Token × JSON)) (depth : Nat)
    (h : ∀ it ∈ items, ParseOK it.2.1 it.1 it.2.2 depth) :
    ParseOK (Token.beginArray :: (joinTokens (items.map fun it => it.2.1) ++ [Token.endArray]))
      ('[' :: (joinComma (items.map fun it => it.1) ++ [']']))
      (JSON.array (items.map fun it => it.2.2)) (depth + 1) := by
  intro stack expect rest he hd
  rw [List.cons_append, parseRun_cons, parseStep_beginArray stack expect he (by omega),
    Option.bind, List.append_assoc, List.singleton_append]
  by_cases hne : items = []
  · subst hne
    rw [List.map, joinTokens, List.nil_append, parseRun_cons]
    rfl
  · rw [parseRun_items items depth h hne stack (by omega) ['['] [] Expect.valueOrEnd
      (Or.inr rfl) rest]
    simp

theorem parseStep_key (rawRev : List Char) (membersRev : List (String × String × JSON))
    (key : Option String) (below : List Frame) (expect : Expect)
    (he : expect = Expect.keyOrEnd ∨ expect = Expect.key) (raw val : List Char) :
    parseStep ⟨Frame.object rawRev membersRev key :: below, expect, none⟩ (Token.string raw val) =
      some ⟨Frame.object (raw.reverse ++ rawRev) membersRev (some (String.mk val)) :: below,
        Expect.colon, none⟩ := by
  rcases he with h | h <;> subst h <;> rfl

theorem parseStep_colon (rawRev : List Char) (membersRev : List (String × String × JSON))
    (key : Option String) (below : List Frame) :
    parseStep ⟨Frame.object rawRev membersRev key :: below, Expect.colon, none⟩ Token.colon =
      some ⟨Frame.object (':' :: rawRev) membersRev key :: below, Expect.value, none⟩ := rfl

theorem parseStep_comma_object (rawRev : List Char) (membersRev : List (String × String × JSON))
    (key : Option String) (below : List Frame) :
    parseStep ⟨Frame.object rawRev membersRev key :: below, Expect.commaOrEnd, none⟩ Token.comma =
      some ⟨Frame.object (',' :: rawRev) membersRev key :: below, Expect.key, none⟩ := rfl

theorem parseStep_endObject (rawRev : List Char) (membersRev : List (String × String × JSON))
    (below : List Frame) :
    parseStep ⟨Frame.object rawRev membersRev none :: below, Expect.commaOrEnd, none⟩
        Token.endObject =
      deliver below ('\x7d' :: rawRev).reverse (JSON.object membersRev.reverse) := rfl

/-- The members of an object after its opening brace, up to and including the closing one. -/
theorem parseRun_fields (fields : List (List Char × List Char × List Token × JSON)) (depth : Nat)
    (h : ∀ f ∈ fields, ParseOK f.2.2.1 f.2.1 f.2.2.2 depth) (hne : fields ≠ [])
    (stack : List Frame) (hd : stack.length + 1 + depth ≤ maxNestingDepth)
    (rawRev : List Char) (membersRev : List (String × String × JSON)) (expect : Expect)
    (he : expect = Expect.keyOrEnd ∨ expect = Expect.key) (rest : List Token) :
    parseRun ⟨Frame.object rawRev membersRev none :: stack, expect, none⟩
        (joinTokens (fields.map fieldTokens) ++ Token.endObject :: rest) =
      (deliver stack
        ('\x7d' :: ((joinComma (fields.map fun f => encodeField (f.1, f.2.1))).reverse
          ++ rawRev)).reverse
        (JSON.object (membersRev.reverse ++ fields.map fieldMember))).bind
        fun st => parseRun st rest := by
  induction fields generalizing rawRev membersRev expect with
  | nil => exact absurd rfl hne
  | cons f rest2 ih =>
    have hf := h f (by simp)
    have hstep := hf
      (Frame.object (':' :: ((encodeString f.1).reverse ++ rawRev)) membersRev
        (some (String.mk f.1)) :: stack) Expect.value
    have hlen : (Frame.object (':' :: ((encodeString f.1).reverse ++ rawRev)) membersRev
        (some (String.mk f.1)) :: stack).length + depth ≤ maxNestingDepth := by
      simpa [Nat.add_assoc] using hd
    cases rest2 with
    | nil =>
      simp only [List.map, joinTokens, joinComma, fieldTokens, List.cons_append]
      rw [parseRun_cons, parseStep_key _ _ _ _ _ he, Option.bind, parseRun_cons, parseStep_colon,
        Option.bind, hstep _ (Or.inl rfl) hlen, deliver_object, Option.bind, parseRun_cons,
        parseStep_endObject]
      simp [encodeField, fieldMember]
    | cons f2 rest3 =>
      have ih2 := ih (fun x hx => h x (by simp [hx])) (by simp)
        (',' :: (f.2.1.reverse ++ (':' :: ((encodeString f.1).reverse ++ rawRev))))
        ((String.mk f.1, String.mk f.2.1, f.2.2.2) :: membersRev) Expect.key (Or.inr rfl)
      simp only [List.map, joinTokens, joinComma, fieldTokens, List.append_assoc,
        List.cons_append] at ih2 ⊢
      rw [parseRun_cons, parseStep_key _ _ _ _ _ he, Option.bind, parseRun_cons, parseStep_colon,
        Option.bind, hstep _ (Or.inl rfl) hlen, deliver_object, Option.bind, parseRun_cons,
        parseStep_comma_object, Option.bind, ih2]
      simp [encodeField, fieldMember]

/-- An object parses as the object of its members, one level deeper than their values are. -/
theorem parseOK_object (fields : List (List Char × List Char × List Token × JSON)) (depth : Nat)
    (h : ∀ f ∈ fields, ParseOK f.2.2.1 f.2.1 f.2.2.2 depth) :
    ParseOK (Token.beginObject :: (joinTokens (fields.map fieldTokens) ++ [Token.endObject]))
      ('\x7b' :: (joinComma (fields.map fun f => encodeField (f.1, f.2.1)) ++ ['\x7d']))
      (JSON.object (fields.map fieldMember)) (depth + 1) := by
  intro stack expect rest he hd
  rw [List.cons_append, parseRun_cons, parseStep_beginObject stack expect he (by omega),
    Option.bind, List.append_assoc, List.singleton_append]
  by_cases hne : fields = []
  · subst hne
    rw [List.map, joinTokens, List.nil_append, parseRun_cons]
    rfl
  · rw [parseRun_fields fields depth h hne stack (by omega) ['\x7b'] [] Expect.keyOrEnd
      (Or.inl rfl) rest]
    simp

theorem reads_mono {text : List Char} {j : JSON} {d d2 : Nat} (h : Reads text j d)
    (hle : d ≤ d2) : Reads text j d2 := by
  obtain ⟨toks, hl, hp⟩ := h
  exact ⟨toks, hl, parseOK_mono hp hle⟩

theorem lexBefore_of_items (items : List (List Char × List Token × JSON))
    (h : ∀ it ∈ items, LexOK it.1 it.2.1) :
    List.Forall₂ LexBefore (items.map fun it => it.1) (items.map fun it => it.2.1) := by
  induction items with
  | nil => exact List.Forall₂.nil
  | cons it rest ih =>
    exact List.Forall₂.cons (h it (by simp)).1 (ih fun x hx => h x (by simp [hx]))

theorem items_of_reads (parts : List (List Char)) (d : Nat)
    (h : ∀ part ∈ parts, ∃ j, Reads part j d) :
    ∃ items : List (List Char × List Token × JSON),
      (items.map fun it => it.1) = parts
        ∧ ∀ it ∈ items, LexOK it.1 it.2.1 ∧ ParseOK it.2.1 it.1 it.2.2 d := by
  induction parts with
  | nil => exact ⟨[], rfl, by simp⟩
  | cons part rest ih =>
    obtain ⟨j, toks, hl, hp⟩ := h part (by simp)
    obtain ⟨items, hmap, hitems⟩ := ih fun x hx => h x (by simp [hx])
    refine ⟨(part, toks, j) :: items, by simp [hmap], ?_⟩
    intro it hit
    simp only [List.mem_cons] at hit
    rcases hit with rfl | hit
    · exact ⟨hl, hp⟩
    · exact hitems it hit

/-- An array of texts the decoder reads is read as the array of their documents, in order. -/
theorem reads_array (parts : List (List Char)) (d : Nat)
    (h : ∀ part ∈ parts, ∃ j, Reads part j d) :
    ∃ js, List.Forall₂ (fun part j => Reads part j d) parts js
      ∧ Reads ('[' :: (joinComma parts ++ [']'])) (JSON.array js) (d + 1) := by
  obtain ⟨items, hmap, hitems⟩ := items_of_reads parts d h
  subst hmap
  refine ⟨items.map fun it => it.2.2, ?_, ?_⟩
  · clear h
    induction items with
    | nil => exact List.Forall₂.nil
    | cons it rest ih =>
      exact List.Forall₂.cons ⟨it.2.1, hitems it (by simp)⟩
        (ih fun x hx => hitems x (by simp [hx]))
  · exact ⟨_, lexOK_bracketed '[' ']' Token.beginArray Token.endArray
        (fun T => (lexStep_idle_punct T).1) (by decide) rfl _ _
        (lexBefore_of_items items fun it hit => (hitems it hit).1),
      parseOK_array items d fun it hit => (hitems it hit).2⟩

theorem fields_of_reads (parts : List (List Char × List Char)) (d : Nat)
    (h : ∀ p ∈ parts, ∃ j, Reads p.2 j d) :
    ∃ fields : List (List Char × List Char × List Token × JSON),
      (fields.map fun f => (f.1, f.2.1)) = parts
        ∧ ∀ f ∈ fields, LexOK f.2.1 f.2.2.1 ∧ ParseOK f.2.2.1 f.2.1 f.2.2.2 d := by
  induction parts with
  | nil => exact ⟨[], rfl, by simp⟩
  | cons p rest ih =>
    obtain ⟨j, toks, hl, hp⟩ := h p (by simp)
    obtain ⟨fields, hmap, hfields⟩ := ih fun x hx => h x (by simp [hx])
    refine ⟨(p.1, p.2, toks, j) :: fields, by simp [hmap], ?_⟩
    intro f hf
    simp only [List.mem_cons] at hf
    rcases hf with rfl | hf
    · exact ⟨hl, hp⟩
    · exact hfields f hf

theorem lexBefore_of_fields (fields : List (List Char × List Char × List Token × JSON))
    (h : ∀ f ∈ fields, LexOK f.2.1 f.2.2.1) :
    List.Forall₂ LexBefore (fields.map fun f => encodeField (f.1, f.2.1))
      (fields.map fieldTokens) := by
  induction fields with
  | nil => exact List.Forall₂.nil
  | cons f rest ih =>
    exact List.Forall₂.cons (lexBefore_field f.1 f.2.1 f.2.2.1 (h f (by simp)).1)
      (ih fun x hx => h x (by simp [hx]))

/-- An object whose values are texts the decoder reads is read as the object of the members
with those keys, source texts and documents, in order. -/
theorem reads_object (parts : List (List Char × List Char)) (d : Nat)
    (h : ∀ p ∈ parts, ∃ j, Reads p.2 j d) :
    ∃ members : List (String × String × JSON),
      List.Forall₂
          (fun p m => m.1 = String.mk p.1 ∧ m.2.1 = String.mk p.2 ∧ Reads p.2 m.2.2 d)
          parts members
        ∧ Reads ('\x7b' :: (joinComma (parts.map encodeField) ++ ['\x7d']))
          (JSON.object members) (d + 1) := by
  obtain ⟨fields, hmap, hfields⟩ := fields_of_reads parts d h
  subst hmap
  refine ⟨fields.map fieldMember, ?_, ?_⟩
  · clear h
    induction fields with
    | nil => exact List.Forall₂.nil
    | cons f rest ih =>
      exact List.Forall₂.cons ⟨rfl, rfl, f.2.2.1, hfields f (by simp)⟩
        (ih fun x hx => hfields x (by simp [hx]))
  · have htext : (fields.map fun f => (f.1, f.2.1)).map encodeField =
        fields.map fun f => encodeField (f.1, f.2.1) := by
      simp [Function.comp_def]
    rw [htext]
    exact ⟨_, lexOK_bracketed '\x7b' '\x7d' Token.beginObject Token.endObject
        (fun T => (lexStep_idle_punct T).2.2.1) (by decide) rfl _ _
        (lexBefore_of_fields fields fun f hf => (hfields f hf).1),
      parseOK_object fields d fun f hf => (hfields f hf).2⟩

theorem reads_null : Reads "null".data JSON.null 0 :=
  ⟨_, lexOK_null, parseOK_literal _ _⟩

theorem reads_bool (b : Bool) :
    Reads (if b then "true".data else "false".data) (JSON.bool b) 0 := by
  cases b
  · exact ⟨_, lexOK_false, parseOK_literal _ _⟩
  · exact ⟨_, lexOK_true, parseOK_literal _ _⟩

theorem reads_int (n : Int) : Reads (formatInt n) (JSON.number (String.mk (formatInt n))) 0 := by
  obtain ⟨c, cs, heq, hc, hcs, hv⟩ := formatInt_number n
  rw [heq] at hv ⊢
  exact ⟨_, lexOK_number c cs hc hcs hv, parseOK_number _⟩

theorem reads_string (s : String) : Reads (encodeString s.data) (JSON.string s) 0 :=
  ⟨_, lexOK_string s.data, parseOK_string _ _⟩

mutual
/-- The decoder reads whatever `json.Marshal` writes for a value. -/
theorem reads_encodeValue : ∀ (v : GoValue) (text : List Char),
    encodeValue v = some text → ∃ j, Reads text j v.depth
  | GoValue.nil, text, h => by
    simp only [encodeValue, Option.some.injEq] at h
    subst h
    exact ⟨_, reads_null⟩
  | GoValue.bool b, text, h => by
    simp only [encodeValue, Option.some.injEq] at h
    subst h
    exact ⟨_, reads_bool b⟩
  | GoValue.int n, text, h => by
    simp only [encodeValue, Option.some.injEq] at h
    subst h
    exact ⟨_, reads_int n⟩
  | GoValue.string s, text, h => by
    simp only [encodeValue, Option.some.injEq] at h
    subst h
    exact ⟨_, reads_string s⟩
  | GoValue.nilSlice, text, h => by
    simp only [encodeValue, Option.some.injEq] at h
    subst h
    exact ⟨_, reads_null⟩
  | GoValue.nilMap, text, h => by
    simp only [encodeValue, Option.some.injEq] at h
    subst h
    exact ⟨_, reads_null⟩
  | GoValue.unsupported, text, h => by
    simp [encodeValue] at h
  | GoValue.slice elems, text, h => by
    simp only [encodeValue] at h
    cases he : encodeElems elems with
    | none => simp [he] at h
    | some parts =>
      simp only [he, Option.map_some', Option.some.injEq] at h
      subst h
      obtain ⟨js, _, hr⟩ := reads_array parts (depthElems elems) (reads_encodeElems elems parts he)
      exact ⟨JSON.array js, by simpa [GoValue.depth] using hr⟩
  | GoValue.map entries, text, h => by
    simp only [encodeValue] at h
    cases he : encodeFields entries with
    | none => simp [he] at h
    | some parts =>
      simp only [he, Option.map_some', Option.some.injEq] at h
      subst h
      have hmem : ∀ p ∈ parts.insertionSort keyLE, ∃ j, Reads p.2 j (depthFields entries) :=
        fun p hp => reads_encodeFields entries parts he p
          ((List.perm_insertionSort keyLE parts).mem_iff.mp hp)
      obtain ⟨members, _, hr⟩ := reads_object _ (depthFields entries) hmem
      exact ⟨JSON.object members, by simpa [GoValue.depth] using hr⟩
  | GoValue.struct fields, text, h => by
    simp only [encodeValue] at h
    cases he : encodeFields fields with
    | none => simp [he] at h
    | some parts =>
      simp only [he, Option.map_some', Option.some.injEq] at h
      subst h
      obtain ⟨members, _, hr⟩ :=
        reads_object parts (depthFields fields) (reads_encodeFields fields parts he)
      exact ⟨JSON.object members, by simpa [GoValue.depth] using hr⟩
/-- The decoder reads the encoding of every element. -/
theorem reads_encodeElems : ∀ (elems : List GoValue) (parts : List (List Char)),
    encodeElems elems = some parts → ∀ part ∈ parts, ∃ j, Reads part j (depthElems elems)
  | [], parts, h => by
    simp only [encodeElems, Option.some.injEq] at h
    subst h
    simp
  | v :: vs, parts, h => by
    unfold encodeElems at h
    cases hv : encodeValue v with
    | none => simp [hv] at h
    | some x =>
      cases hvs : encodeElems vs with
      | none => simp [hv, hvs] at h
      | some xs =>
        simp only [hv, hvs, Option.some.injEq] at h
        subst h
        intro part hpart
        simp only [List.mem_cons] at hpart
        rcases hpart with rfl | hpart
        · obtain ⟨j, hj⟩ := reads_encodeValue v part hv
          exact ⟨j, reads_mono hj (by simp [depthElems])⟩
        · obtain ⟨j, hj⟩ := reads_encodeElems vs xs hvs part hpart
          exact ⟨j, reads_mono hj (by simp [depthElems])⟩
/-- The decoder reads the encoding of the value of every field. -/
theorem reads_encodeFields : ∀ (fields : List (String × GoValue))
    (parts : List (List Char × List Char)),
    encodeFields fields = some parts → ∀ p ∈ parts, ∃ j, Reads p.2 j (depthFields fields)
  | [], parts, h => by
    simp only [encodeFields, Option.some.injEq] at h
    subst h
    simp
  | (k, v) :: kvs, parts, h => by
    unfold encodeFields at h
    cases hv : encodeValue v with
    | none => simp [hv] at h
    | some x =>
      cases hvs : encodeFields kvs with
      | none => simp [hv, hvs] at h
      | some xs =>
        simp only [hv, hvs, Option.some.injEq] at h
        subst h
        intro p hp
        simp only [List.mem_cons] at hp
        rcases hp with rfl | hp
        · obtain ⟨j, hj⟩ := reads_encodeValue v x hv
          exact ⟨j, reads_mono hj (by simp [depthFields])⟩
        · obtain ⟨j, hj⟩ := reads_encodeFields kvs xs hvs p hp
          exact ⟨j, reads_mono hj (by simp [depthFields])⟩
end

/-- C2: when the body decodes to a response whose error member is not null, with code c and
message m, Call returns a nil result and the error value SuiError c m, whatever the result
member holds. -/
theorem Call_service_error (rpc : SuiRPC) (method : String) (params : Option (List GoValue))
    (data : String) (resp : suiResponse) (c : Int) (m : String)
    (h : Answers rpc method params data)
    (hd : Unmarshal storeResponse data zeroResponse = (resp, none))
    (he : resp.Error = some ⟨c, m⟩) :
    (rpc.Call method params).ret = Returned.values (none, some (GoError.sui ⟨c, m⟩)) := by
  rw [Call_of_answers h, hd]
  simp only [he]

/-- C2, at the body of the specification: the error reads "Error -32601 (Method not found)". -/
theorem Call_service_error_witness :
    ((localRPC (stubClient 200
        "\x7b\"id\":1,\"jsonrpc\":\"2.0\",\"result\":null,\"error\":\x7b\"code\":-32601,\"message\":\"Method not found\"\x7d\x7d")
        false).Call "sui_nothing" none).ret =
        Returned.values (none, some (GoError.sui ⟨-32601, "Method not found"⟩))
      ∧ (SuiError.mk (-32601) "Method not found").Error = "Error -32601 (Method not found)" :=
  ⟨Call_service_error _ "sui_nothing" none
      "\x7b\"id\":1,\"jsonrpc\":\"2.0\",\"result\":null,\"error\":\x7b\"code\":-32601,\"message\":\"Method not found\"\x7d\x7d"
      ⟨1, "2.0", some "null", some ⟨-32601, "Method not found"⟩⟩ (-32601) "Method not found"
      ⟨_, 200, rfl, rfl⟩ (by decide) rfl,
    by decide⟩

/-- C3: when the body decodes to a response whose error member is null or absent, Call returns
a nil error and, as raw result, the source text of the result member of the body, undecoded
(nil when the body has no such member). -/
theorem Call_raw_result (rpc : SuiRPC) (method : String) (params : Option (List GoValue))
    (data : String) (resp : suiResponse)
    (h : Answers rpc method params data)
    (hd : Unmarshal storeResponse data zeroResponse = (resp, none))
    (he : resp.Error = none) :
    (rpc.Call method params).ret = Returned.values (resp.Result, none)
      ∧ resp.Result = memberText "result" data := by
  constructor
  · rw [Call_of_answers h, hd]
    simp only [he]
  · rw [← Unmarshal_response_result, hd]

/-- C3, at the body of the specification: the raw result is the text of the object. -/
theorem Call_raw_result_witness :
    ((localRPC (stubClient 200
        "\x7b\"id\":1,\"jsonrpc\":\"2.0\",\"result\":\x7b\"foo\":\"bar\"\x7d,\"error\":null\x7d")
        false).Call "sui_something" none).ret =
        Returned.values (some "\x7b\"foo\":\"bar\"\x7d", none)
      ∧ some "\x7b\"foo\":\"bar\"\x7d" = memberText "result"
          "\x7b\"id\":1,\"jsonrpc\":\"2.0\",\"result\":\x7b\"foo\":\"bar\"\x7d,\"error\":null\x7d" :=
  Call_raw_result _ "sui_something" none
    "\x7b\"id\":1,\"jsonrpc\":\"2.0\",\"result\":\x7b\"foo\":\"bar\"\x7d,\"error\":null\x7d"
    ⟨1, "2.0", some "\x7b\"foo\":\"bar\"\x7d", none⟩ ⟨_, 200, rfl, rfl⟩ (by decide) rfl


theorem call_trace {τ : Type} (rpc : SuiRPC) (method : String) (target : Target τ)
    (params : Option (List GoValue)) :
    (rpc.call method target params).trace = (rpc.Call method params).trace := by
  unfold SuiRPC.call
  rcases rpc.Call method params with ⟨ret, trace⟩
  cases ret with
  | panic => rfl
  | values v =>
    obtain ⟨result, err⟩ := v
    cases err with
    | some e => rfl
    | none => cases target <;> rfl

theorem Discover_trace (rpc : SuiRPC) :
    rpc.Discover.trace = (rpc.Call "rpc.discover" none).trace := by
  have h := call_trace rpc "rpc.discover"
    (Target.pointer (none : Option (List (String × JSON))) storeMap) none
  unfold SuiRPC.Discover
  simp only []
  rw [← h]
  generalize rpc.call "rpc.discover"
    (Target.pointer (none : Option (List (String × JSON))) storeMap) none = r
  rcases r with ⟨ret, trace⟩
  cases ret <;> rfl

/-- C4, amended: a call made with no parameters, for a method that is valid UTF-8, sends exactly
one request, whose body is the object with the members id = 1, jsonrpc = "2.0", method = the
method and params = null; Discover is such a call, for the method rpc.discover; a call given the
empty slice that is not nil sends params = []. -/
theorem Call_nil_params_posts_null (rpc : SuiRPC) (method : String) :
    posts (rpc.Call method none).trace =
        [Event.Post rpc.url "application/json"
          (String.mk ("\x7b\"id\":1,\"jsonrpc\":\"2.0\",\"method\":".data
            ++ encodeString method.data ++ ",\"params\":".data ++ "null".data ++ "\x7d".data))]
      ∧ parseJSON ("\x7b\"id\":1,\"jsonrpc\":\"2.0\",\"method\":".data
            ++ encodeString method.data ++ ",\"params\":".data ++ "null".data ++ "\x7d".data) =
        some (JSON.object [("id", "1", JSON.number "1"),
          ("jsonrpc", "\"2.0\"", JSON.string "2.0"),
          ("method", String.mk (encodeString method.data), JSON.string method),
          ("params", "null", JSON.null)])
      ∧ posts rpc.Discover.trace =
        [Event.Post rpc.url "application/json"
          "\x7b\"id\":1,\"jsonrpc\":\"2.0\",\"method\":\"rpc.discover\",\"params\":null\x7d"]
      ∧ posts (rpc.Call method (some [])).trace =
        [Event.Post rpc.url "application/json"
          (String.mk ("\x7b\"id\":1,\"jsonrpc\":\"2.0\",\"method\":".data
            ++ encodeString method.data ++ ",\"params\":".data ++ "[]".data ++ "\x7d".data))] := by
  refine ⟨posts_Call (Marshal_request method none _ rfl), parseJSON_request_nil method, ?_,
    posts_Call (Marshal_request method (some []) _ rfl)⟩
  rw [Discover_trace]
  exact posts_Call rfl

/-- C4 as stated fails: the request Discover sends has the member params = null, not the
empty array. -/
theorem Discover_params_not_array :
    posts (localRPC (stubClient 200 "null") false).Discover.trace =
        [Event.Post "http://127.0.0.1:9000" "application/json"
          "\x7b\"id\":1,\"jsonrpc\":\"2.0\",\"method\":\"rpc.discover\",\"params\":null\x7d"]
      ∧ parseJSON
          "\x7b\"id\":1,\"jsonrpc\":\"2.0\",\"method\":\"rpc.discover\",\"params\":null\x7d".data =
        some (JSON.object [("id", "1", JSON.number "1"),
          ("jsonrpc", "\"2.0\"", JSON.string "2.0"),
          ("method", "\"rpc.discover\"", JSON.string "rpc.discover"),
          ("params", "null", JSON.null)]) :=
  ⟨by decide, rfl⟩

/-- C5 as stated fails: the body `null` is valid JSON and not an object, the body with
`"id":null` has an id that is no integer, and Call returns a nil error for both. -/
theorem Call_null_body_no_error :
    (parseJSON "null".data).isSome = true
      ∧ ((localRPC (stubClient 200 "null") false).Call "rpc.discover" none).ret =
        Returned.values (none, none)
      ∧ ((localRPC (stubClient 200
          "\x7b\"id\":null,\"jsonrpc\":\"2.0\",\"result\":7\x7d") false).Call "rpc.discover" none).ret =
        Returned.values (some "7", none) := by
  decide

/-- C5, amended: when the body is not valid JSON, or is valid JSON that does not fit the
response (a document that is neither null nor an object, or an object with an id that is
neither null nor an integer literal fitting 64 bits, a jsonrpc that is neither null nor a
string, or an error that is neither null nor an object whose code is null or such an integer
and whose message is null or a string), Call returns a nil result and a deserialization error:
the syntax error in the first case, the type error in the second. -/
theorem Call_deserialization_error (rpc : SuiRPC) (method : String)
    (params : Option (List GoValue)) (data : String)
    (h : Answers rpc method params data)
    (hbad : ∀ v, parseJSON data.data = some v → fitsResponse v = false) :
    (rpc.Call method params).ret =
      Returned.values (none,
        some (if (parseJSON data.data).isSome then GoError.typeMismatch
          else GoError.invalidJSON)) := by
  rw [Call_of_answers h]
  have herr := Unmarshal_response_error data
  rcases hu : Unmarshal storeResponse data zeroResponse with ⟨resp, uerr⟩
  rw [hu] at herr
  cases hp : parseJSON data.data with
  | none =>
    rw [hp] at herr
    simp only at herr
    subst herr
    rfl
  | some v =>
    rw [hp] at herr
    simp only [hbad v hp] at herr
    subst herr
    rfl

/-- C5, amended, at three bodies: text that is not JSON, an array, and an id with a fraction. -/
theorem Call_deserialization_error_witness :
    ((localRPC (stubClient 200 "<html>502</html>") false).Call "rpc.discover" none).ret =
        Returned.values (none, some GoError.invalidJSON)
      ∧ ((localRPC (stubClient 200 "[1,2]") false).Call "rpc.discover" none).ret =
        Returned.values (none, some GoError.typeMismatch)
      ∧ ((localRPC (stubClient 200 "\x7b\"id\":1.5,\"result\":7\x7d") false).Call "rpc.discover"
          none).ret =
        Returned.values (none, some GoError.typeMismatch) :=
  ⟨Call_deserialization_error _ "rpc.discover" none "<html>502</html>" ⟨_, 200, rfl, rfl⟩
      (by decide),
    Call_deserialization_error _ "rpc.discover" none "[1,2]" ⟨_, 200, rfl, rfl⟩
      (fun v hv => by
        have h2 : parseJSON "[1,2]".data = some (JSON.array [JSON.number "1", JSON.number "2"]) :=
          rfl
        rw [h2] at hv
        cases hv
        rfl),
    Call_deserialization_error _ "rpc.discover" none "\x7b\"id\":1.5,\"result\":7\x7d"
      ⟨_, 200, rfl, rfl⟩
      (fun v hv => by
        have h2 : parseJSON "\x7b\"id\":1.5,\"result\":7\x7d".data =
            some (JSON.object [("id", "1.5", JSON.number "1.5"), ("result", "7", JSON.number "7")]) :=
          rfl
        rw [h2] at hv
        cases hv
        rfl)⟩


/-! ## Transport failure, the typed wrapper, logging and status codes -/

/-- C6: when Post returns an error, Call returns that error and a nil result, and the logger
is not invoked, whatever Debug is. -/
theorem Call_transport_error (rpc : SuiRPC) (method : String) (params : Option (List GoValue))
    (body : String) (err : GoError)
    (hm : Marshal (suiRequest.toValue ⟨1, "2.0", method, params⟩) = Except.ok body)
    (hp : (rpc.client rpc.url "application/json" body).err = some err) :
    (rpc.Call method params).ret = Returned.values (none, some err)
      ∧ printed (rpc.Call method params).trace = [] := by
  unfold SuiRPC.Call
  simp only [hm, hp]
  cases (rpc.client rpc.url "application/json" body).response <;>
    simp [printed, Event.isPrintln]

/-- C6, at a refused connection with Debug enabled. -/
theorem Call_transport_error_witness :
    ((localRPC (failingClient (GoError.other "connection refused")) true).Call "rpc.discover"
        none).ret = Returned.values (none, some (GoError.other "connection refused"))
      ∧ printed ((localRPC (failingClient (GoError.other "connection refused")) true).Call
          "rpc.discover" none).trace = [] :=
  Call_transport_error (localRPC (failingClient (GoError.other "connection refused")) true)
    "rpc.discover" none
    "\x7b\"id\":1,\"jsonrpc\":\"2.0\",\"method\":\"rpc.discover\",\"params\":null\x7d"
    (GoError.other "connection refused") rfl rfl

/-- C8: with a nil target, when Call returns a nil error the wrapper returns a nil error,
whatever the raw result is (nil, empty or not JSON at all: it is not deserialized); and with any
target, when Call returns an error the wrapper returns that error and the target is as it was. -/
theorem call_nil_target_or_failure {τ : Type} (rpc : SuiRPC) (method : String)
    (params : Option (List GoValue)) (target : Target τ) :
    (∀ result, (rpc.Call method params).ret = Returned.values (result, none) →
        (rpc.call method (Target.nilInterface : Target τ) params).ret =
          Returned.values (none, Target.nilInterface))
      ∧ (∀ result err, (rpc.Call method params).ret = Returned.values (result, some err) →
        (rpc.call method target params).ret = Returned.values (some err, target)) := by
  constructor
  · intro result h
    unfold SuiRPC.call
    rcases hC : rpc.Call method params with ⟨ret, trace⟩
    rw [hC] at h
    simp only at h
    subst h
    rfl
  · intro result err h
    unfold SuiRPC.call
    rcases hC : rpc.Call method params with ⟨ret, trace⟩
    rw [hC] at h
    simp only at h
    subst h
    rfl

/-- C8, at a body without a result member (the raw result is nil) and at a refused
connection. -/
theorem call_nil_target_or_failure_witness :
    ((localRPC (stubClient 200 "\x7b\"id\":1\x7d") false).call "sui_ping"
        (Target.nilInterface : Target Unit) none).ret =
        Returned.values (none, Target.nilInterface)
      ∧ ((localRPC (failingClient (GoError.other "connection refused")) false).call "sui_ping"
          (Target.pointer (none : Option (List (String × JSON))) storeMap) none).ret =
        Returned.values (some (GoError.other "connection refused"),
          Target.pointer none storeMap) :=
  ⟨(call_nil_target_or_failure (localRPC (stubClient 200 "\x7b\"id\":1\x7d") false) "sui_ping"
      none (Target.nilInterface : Target Unit)).1 none (by decide),
    (call_nil_target_or_failure (localRPC (failingClient (GoError.other "connection refused")) false)
      "sui_ping" none (Target.pointer (none : Option (List (String × JSON))) storeMap)).2 none
      (GoError.other "connection refused") (by decide)⟩

/-- C9: Call returns the same result and error with Debug on and off, its trace with Debug
on is its trace with Debug off once the logger's lines are left out (so the transport is invoked
alike), and with Debug off the logger is not invoked. -/
theorem Call_debug_observational (url : String) (client : httpClient) (method : String)
    (params : Option (List GoValue)) :
    (SuiRPC.Call ⟨url, client, true⟩ method params).ret =
        (SuiRPC.Call ⟨url, client, false⟩ method params).ret
      ∧ (SuiRPC.Call ⟨url, client, true⟩ method params).trace.filter (fun e => !e.isPrintln) =
        (SuiRPC.Call ⟨url, client, false⟩ method params).trace
      ∧ posts (SuiRPC.Call ⟨url, client, true⟩ method params).trace =
        posts (SuiRPC.Call ⟨url, client, false⟩ method params).trace
      ∧ printed (SuiRPC.Call ⟨url, client, false⟩ method params).trace = [] := by
  unfold SuiRPC.Call
  rcases hm : Marshal (suiRequest.toValue ⟨1, "2.0", method, params⟩) with err | body
  · simp [hm, posts, printed]
  · rcases hp : client url "application/json" body with ⟨_ | ⟨status, data, _ | rerr⟩, _ | err⟩ <;>
      simp [hm, hp, posts, printed, Event.isPost, Event.isPrintln]
    rcases hu : Unmarshal storeResponse data zeroResponse with ⟨resp, _ | uerr⟩
    · cases he : resp.Error <;> simp [he, Event.isPost, Event.isPrintln]
    · simp [Event.isPost, Event.isPrintln]

/-- C10: two successful responses with the same body and any two status codes give the same
result and error; and for a body read in full, Call fails with a service error exactly when the
body decodes to a response whose error member is not null. -/
theorem Call_ignores_status (url : String) (debug : Bool) (method : String)
    (params : Option (List GoValue)) (body : String) (client₁ client₂ : httpClient)
    (status₁ status₂ : Int) (reader : ReadCloser)
    (hm : Marshal (suiRequest.toValue ⟨1, "2.0", method, params⟩) = Except.ok body)
    (h₁ : client₁ url "application/json" body = ⟨some ⟨status₁, reader⟩, none⟩)
    (h₂ : client₂ url "application/json" body = ⟨some ⟨status₂, reader⟩, none⟩) :
    (SuiRPC.Call ⟨url, client₁, debug⟩ method params).ret =
        (SuiRPC.Call ⟨url, client₂, debug⟩ method params).ret
      ∧ (reader.readErr = none →
          ((∃ e, (SuiRPC.Call ⟨url, client₁, debug⟩ method params).ret =
              Returned.values (none, some (GoError.sui e)))
            ↔ ∃ resp, Unmarshal storeResponse reader.data zeroResponse = (resp, none)
                ∧ resp.Error ≠ none)) := by
  constructor
  · unfold SuiRPC.Call
    simp only [hm, h₁, h₂]
    cases reader.readErr with
    | some rerr => rfl
    | none =>
      simp only
      rcases Unmarshal storeResponse reader.data zeroResponse with ⟨resp, _ | uerr⟩
      · cases resp.Error <;> rfl
      · rfl
  · intro hr
    obtain ⟨data, rerr⟩ := reader
    simp only at hr
    subst hr
    have hA : Answers ⟨url, client₁, debug⟩ method params data := ⟨body, status₁, hm, h₁⟩
    rw [Call_of_answers hA]
    have herr := Unmarshal_response_error data
    rcases hu : Unmarshal storeResponse data zeroResponse with ⟨resp, _ | uerr⟩
    · cases he : resp.Error with
      | none => simp [he]
      | some e => simp [he]
    · rw [hu] at herr
      simp only at herr
      constructor
      · rintro ⟨e, he⟩
        simp only [Returned.values.injEq, Prod.mk.injEq, true_and, Option.some.injEq] at he
        subst he
        cases hp : parseJSON data.data with
        | none => simp [hp] at herr
        | some v =>
          rw [hp] at herr
          simp only at herr
          split at herr <;> simp at herr
      · rintro ⟨resp2, h2, _⟩
        simp at h2

/-- C10, at the error body of the specification under the status codes 200 and 500. -/
theorem Call_ignores_status_witness :
    ((localRPC (stubClient 200
        "\x7b\"id\":1,\"jsonrpc\":\"2.0\",\"result\":null,\"error\":\x7b\"code\":-32601,\"message\":\"Method not found\"\x7d\x7d")
        false).Call "sui_nothing" none).ret =
      ((localRPC (stubClient 500
        "\x7b\"id\":1,\"jsonrpc\":\"2.0\",\"result\":null,\"error\":\x7b\"code\":-32601,\"message\":\"Method not found\"\x7d\x7d")
        false).Call "sui_nothing" none).ret :=
  (Call_ignores_status "http://127.0.0.1:9000" false "sui_nothing" none
    "\x7b\"id\":1,\"jsonrpc\":\"2.0\",\"method\":\"sui_nothing\",\"params\":null\x7d"
    (stubClient 200
      "\x7b\"id\":1,\"jsonrpc\":\"2.0\",\"result\":null,\"error\":\x7b\"code\":-32601,\"message\":\"Method not found\"\x7d\x7d")
    (stubClient 500
      "\x7b\"id\":1,\"jsonrpc\":\"2.0\",\"result\":null,\"error\":\x7b\"code\":-32601,\"message\":\"Method not found\"\x7d\x7d")
    200 500
    ⟨"\x7b\"id\":1,\"jsonrpc\":\"2.0\",\"result\":null,\"error\":\x7b\"code\":-32601,\"message\":\"Method not found\"\x7d\x7d",
      none⟩
    rfl rfl rfl).1

end Suirpc
